import Mathlib

/-!
Verification of the epub2md repository (src/epub2md.py and src/md2epub.py)
against its natural-language specification.

The Python source is shallowly embedded: pure string-processing functions
become Lean functions over `String` / `List Char`; the `ebooklib` book
object becomes an explicit `Book` structure holding the document fragments,
image assets, spine and OPF metadata; fallible paths become `Except`.
External collaborators that the spec declares out of scope (the markdown
and html2text converters, BeautifulSoup title extraction, the filesystem)
are modelled as opaque function parameters or are represented by the data
the source derives from them.

Whitespace is modelled over the ASCII whitespace set recognised by
Python's `str.strip` / regex `\s` (space, tab, newline, carriage return,
vertical tab, form feed).  The character class `\w` and `str.lower()` are
modelled on their ASCII fragment; the one theorem whose truth depends on
characters outside that fragment (the slugify output-shape theorem of
claim C4) restricts its quantifier to ASCII inputs, where the model and
the program provably coincide.
-/

namespace Epub2Md

/-- ASCII whitespace as recognised by Python's `str.strip` and regex `\s`. -/
def isPySpace (c : Char) : Bool :=
  c == ' ' || c == '\t' || c == '\n' || c == '\r' || c == '\x0b' || c == '\x0c'

/-- Python `str.strip()` on a character list. -/
def pyStripChars (cs : List Char) : List Char :=
  ((cs.dropWhile isPySpace).reverse.dropWhile isPySpace).reverse

/-- Python `str.strip()`. -/
def pyStrip (s : String) : String :=
  String.mk (pyStripChars s.data)

/-- Python `str.lstrip()` on a character list. -/
def pyLStripChars (cs : List Char) : List Char :=
  cs.dropWhile isPySpace

/-!
## Chapter Splitter (src/md2epub.py, `split_into_chapters`, lines 64-117)

The source splits `content` on `'\n'`, scans the lines against the regex
`^(#{1,2})\s+(.+)$`, and joins each chapter's lines back with `'\n'`.
We embed the line split/join directly (Python `str.split('\n')` /
`'\n'.join`), and the regex match including its greedy backtracking:
the match succeeds iff the line starts with one or two `#` characters
followed by a whitespace character and at least one further character
(`.` never meets a newline here because lines are newline-free); group 2
is the rest after the longest whitespace run that still leaves one
character for `.+`.
-/

/-- Python `content.split('\n')` at the character level: the list of
newline-free line fragments; always non-empty (`""` gives `[[]]`). -/
def splitLinesChars : List Char → List (List Char)
  | [] => [[]]
  | '\n' :: rest => [] :: splitLinesChars rest
  | c :: rest =>
    match splitLinesChars rest with
    | [] => [[c]]
    | l :: ls => (c :: l) :: ls

/-- Python `'\n'.join(lines)` at the character level. -/
def joinLinesChars : List (List Char) → List Char
  | [] => []
  | [l] => l
  | l :: ls => l ++ '\n' :: joinLinesChars ls

/-- Group 2 of `re.match(r'^(#{1,2})\s+(.+)$', line)`: `some` of the text
after the hashes and the whitespace run when the regex matches, `none`
otherwise.  Faithful to greedy matching with backtracking: `\s+` takes the
maximal whitespace run that still leaves at least one character for `.+`. -/
def headingGroup2 (line : List Char) : Option (List Char) :=
  let hashes := line.takeWhile (fun c => c == '#')
  let rest := line.drop hashes.length
  if hashes.length == 1 || hashes.length == 2 then
    match rest with
    | [] => none
    | c :: _ =>
      if isPySpace c && decide (2 ≤ rest.length) then
        some (rest.drop (min (rest.takeWhile isPySpace).length (rest.length - 1)))
      else none
  else none

/-- The stripped heading text `match.group(2).strip()` used as chapter
title, `none` when the line is not a level-1/level-2 heading. -/
def headingTitle (line : List Char) : Option (List Char) :=
  (headingGroup2 line).map pyStripChars

/-- `True` iff the line opens a chapter boundary. -/
def isHeadingLine (l : List Char) : Bool :=
  (headingTitle l).isSome

/-- `title = current_title or f"{base_title} {chapter_num}"`: Python `or`
treats the empty-string title as falsy and falls back to the positional
title. -/
def chapterTitle (t : Option (List Char)) (base : String) (num : Nat) : String :=
  match t with
  | some tc => if tc.isEmpty then base ++ " " ++ toString num else String.mk tc
  | none => base ++ " " ++ toString num

/-- Loop state of `split_into_chapters`: accumulated chapters, the lines of
the chapter currently open, the pending title, the chapter counter, and the
`found_first_title` flag. -/
structure SplitSt where
  chapters : List (String × List (List Char))
  current : List (List Char)
  title : Option (List Char)
  num : Nat
  found : Bool

/-- Body of the `for line in lines` loop of `split_into_chapters`. -/
def splitStep (base : String) (st : SplitSt) (line : List Char) : SplitSt :=
  match headingTitle line with
  | some t =>
    if !st.found then
      { st with found := true, title := some t, current := [line] }
    else if !st.current.isEmpty then
      { chapters := st.chapters ++ [(chapterTitle st.title base st.num, st.current)],
        current := [line], title := some t, num := st.num + 1, found := true }
    else
      { st with title := some t, current := [line] }
  | none => { st with current := st.current ++ [line] }

/-- The final flush after the loop (`if current_chapter: chapters.append(...)`). -/
def splitFlush (base : String) (st : SplitSt) : List (String × List (List Char)) :=
  if !st.current.isEmpty then
    st.chapters ++ [(chapterTitle st.title base st.num, st.current)]
  else st.chapters

/-- `split_into_chapters` at the line level: loop plus final flush. -/
def splitIntoChaptersLines (base : String) (ls : List (List Char)) :
    List (String × List (List Char)) :=
  splitFlush base (ls.foldl (splitStep base) ⟨[], [], none, 1, false⟩)

/-- `split_into_chapters(content, base_title)` from src/md2epub.py,
including the trailing `if not chapters` fallback of lines 113-115. -/
def split_into_chapters (content : String) (base : String) : List (String × String) :=
  let chs := (splitIntoChaptersLines base (splitLinesChars content.data)).map
      (fun p => (p.1, String.mk (joinLinesChars p.2)))
  if chs.isEmpty then [(base ++ " 1", content)] else chs

/-- The lines kept by the splitter: everything from the first heading line
on when a heading exists, the whole input otherwise. -/
def dropBeforeFirstHeading (ls : List (List Char)) : List (List Char) :=
  if ls.any isHeadingLine then ls.dropWhile (fun l => !isHeadingLine l) else ls

/-!
## Reverse-direction fatal path (src/md2epub.py, `convert_md_to_epub`
lines 383-436 and `main` lines 521-534)

Only the chapter-filtering and error-raising structure is content-relevant;
the markdown-to-HTML converter is an external collaborator and is passed in
as an opaque function.  `epub.write_epub` (line 473) is reached only on the
`Except.ok` branch, after both `raise ValueError` sites.
-/

/-- The chapter-collection core of `convert_md_to_epub`: split into
chapters, drop chapters whose stripped content (or stripped generated HTML)
is empty, and raise when nothing remains.  `Except.ok` carries the spine
items that the packaging step (reached only then) would write. -/
def convert_md_to_epub (content : String) (md2html : String → String) :
    Except String (List (String × String)) :=
  let chapters := split_into_chapters content "Chapitre"
  if chapters.isEmpty then
    Except.error "Aucun chapitre trouvé dans le contenu Markdown"
  else
    let spineItems := chapters.filterMap (fun p =>
      if pyStrip p.2 == "" then none
      else
        let h := md2html p.2
        if pyStrip h == "" then none else some (p.1, h))
    if spineItems.isEmpty then
      Except.error "Aucun chapitre valide trouvé pour créer l'EPUB"
    else Except.ok spineItems

/-- `main` of src/md2epub.py catches every conversion exception and maps it
to `sys.exit(1)`; success exits 0. -/
def mainExitCode {α : Type} (r : Except String α) : Nat :=
  match r with
  | .error _ => 1
  | .ok _ => 0

/-!
## Slug Generator (src/epub2md.py, `slugify`, lines 46-64)

Each regex substitution of the source is embedded as a character-list
transformation: `re.sub(r"\s+", " ", .)` collapses whitespace runs to one
space, `re.sub(r"[^\w\s-]", "", .)` filters, `re.sub(r"-+", "-", .)`
collapses hyphen runs.  `\w` is modelled over ASCII (letters, digits,
underscore).
-/

/-- The ASCII fragment of the source's `\w` (line 61 uses
`flags=re.UNICODE`, under which `\w` also keeps non-ASCII word characters):
ASCII letters, digits, underscore.  On ASCII characters this agrees with
the program exactly; the claim-C4 theorem below therefore quantifies only
over ASCII inputs, where this model and the program provably coincide. -/
def isWordChar (c : Char) : Bool :=
  c.isAlphanum || c == '_'

/-- `re.sub(r"\s+", " ", cs)`: each maximal whitespace run becomes a single
space.  The flag records whether the previous character was whitespace. -/
def collapseWsAux : Bool → List Char → List Char
  | _, [] => []
  | prevWs, c :: rest =>
    if isPySpace c then
      if prevWs then collapseWsAux true rest
      else ' ' :: collapseWsAux true rest
    else c :: collapseWsAux false rest

/-- `re.sub(r"-+", "-", cs)`: each maximal hyphen run becomes a single
hyphen. -/
def collapseHyAux : Bool → List Char → List Char
  | _, [] => []
  | prevHy, c :: rest =>
    if c == '-' then
      if prevHy then collapseHyAux true rest
      else '-' :: collapseHyAux true rest
    else c :: collapseHyAux false rest

/-- No two adjacent hyphens occur in the list. -/
def noDoubleHyphen : List Char → Bool
  | c1 :: c2 :: rest => !(c1 == '-' && c2 == '-') && noDoubleHyphen (c2 :: rest)
  | _ => true

/-- The list does not start with a hyphen. -/
def headNotHy : List Char → Bool
  | c :: _ => c != '-'
  | [] => true

/-- Line 57 of `slugify`: `re.sub(r"\s+", " ", (name or "").strip())`. -/
def slugStage1 (nameCs : List Char) : List Char :=
  collapseWsAux false (pyStripChars nameCs)

/-- Lines 58-59: `if not name: name = fallback`. -/
def slugStage2 (nameCs fbCs : List Char) : List Char :=
  if (slugStage1 nameCs).isEmpty then fbCs else slugStage1 nameCs

/-- Lines 60-63 of `slugify`: lowercase, strip non-`[\w\s-]` characters,
strip, replace spaces by hyphens, collapse hyphen runs.  `Char.toLower`
models Python's Unicode `str.lower()` on its ASCII fragment only (both map
`A`-`Z` to `a`-`z` and fix all other ASCII characters); accordingly the
claim-C4 theorem restricts its input to ASCII, where this is exact. -/
def slugCore (cs : List Char) : List Char :=
  collapseHyAux false
    ((pyStripChars ((cs.map Char.toLower).filter
        (fun c => isWordChar c || isPySpace c || c == '-'))).map
      (fun c => if c == ' ' then '-' else c))

/-- `slugify` of src/epub2md.py on character lists, stage by stage in
source order (lines 57-64). -/
def slugifyChars (nameCs fbCs : List Char) : List Char :=
  if (slugCore (slugStage2 nameCs fbCs)).isEmpty then fbCs
  else slugCore (slugStage2 nameCs fbCs)

/-- `slugify(name, fallback)` from src/epub2md.py. -/
def slugify (name : String) (fallback : String) : String :=
  String.mk (slugifyChars name.data fallback.data)

/-- `[a-z0-9]` of the spec's slug regex. -/
def isSlugChar (c : Char) : Bool :=
  ('a' ≤ c && c ≤ 'z') || ('0' ≤ c && c ≤ '9')

/-- DFA for the spec's regex `^[a-z0-9]+(-[a-z0-9]+)*$`; the Boolean state
is `true` while at least one `[a-z0-9]` character is still required before
accepting (at the start and right after each hyphen). -/
def slugDFA : Bool → List Char → Bool
  | b, [] => !b
  | b, c :: rest =>
    if isSlugChar c then slugDFA false rest
    else if c == '-' && !b then slugDFA true rest
    else false

/-- Modelled from the spec: the acceptance test for the spec's slug output
regex `^[a-z0-9]+(-[a-z0-9]+)*$` (claim C4); used to compare `slugify`'s
actual output shape against the spec's words. -/
def matchesSlugRegex (s : String) : Bool :=
  slugDFA true s.data

/-!
## The book data model (ebooklib objects as seen by src/epub2md.py)

`book.get_items_of_type(ebooklib.ITEM_DOCUMENT)` and `(ITEM_IMAGE)` are the
two item collections the source consumes; `book.spine` entries are either
`(idref, meta)`-style tuples or plain idref strings; `get_metadata("OPF",
"meta")` yields `(value, attrs)` pairs whose `attrs` may fail `isinstance
(attrs, dict)` or may not even unpack (raising, which tier 1 of
`detect_cover_item` catches).
-/

/-- An ebooklib item as used by src/epub2md.py: identifier, internal href,
and the EPUB3 `properties` list (empty when absent, matching the falsiness
of `getattr(it, "properties", None)`). -/
structure EpubItem where
  id : String
  file_name : String
  properties : List String
deriving DecidableEq

/-- One entry of `book.spine`: either a tuple whose metadata dict may carry
an `idref` (`none` for a short tuple or a missing key), or a plain idref
value. -/
inductive SpineEntry where
  | tup (idref : Option String)
  | direct (idref : String)
deriving DecidableEq

/-- One entry of `book.get_metadata("OPF", "meta")`: a proper
`(value, attrs-dict)` pair, a pair whose second component is not a dict
(skipped by the `isinstance` check), or an entry that raises on unpacking
(malformed metadata, caught by the `try/except` of tier 1). -/
inductive MetaEntry where
  | pair (value : String) (attrs : List (String × String))
  | nonDict (value : String)
  | malformed
deriving DecidableEq

/-- The EPUB book as consumed by src/epub2md.py. -/
structure Book where
  documents : List EpubItem
  images : List EpubItem
  spine : List SpineEntry
  metaOPF : List MetaEntry
deriving DecidableEq

/-!
## Reading-Order Resolver (src/epub2md.py, `iter_spine_items`, lines 102-129)
-/

/-- The idref a spine entry carries: `meta.get("idref")` for tuples, the
entry itself otherwise. -/
def entryIdref : SpineEntry → Option String
  | .tup o => o
  | .direct s => some s

/-- Lookup in `idref_to_item = {i.id: i for i in documents}`: a dict
comprehension keeps the LAST item for a duplicated id, hence the reversed
search. -/
def docById (docs : List EpubItem) (idref : String) : Option EpubItem :=
  docs.reverse.find? (fun d => d.id == idref)

/-- One spine entry resolved to a document item: `some` exactly when the
loop body of `iter_spine_items` yields (`if idref and idref in
idref_to_item`; the empty idref is falsy). -/
def resolveEntry (docs : List EpubItem) (e : SpineEntry) : Option EpubItem :=
  match entryIdref e with
  | some idref => if idref ≠ "" then docById docs idref else none
  | none => none

/-- `iter_spine_items`: the spine entries resolved in order; if none
resolved (`yielded` stays false) all document items are yielded in native
collection order. -/
def iter_spine_items (book : Book) : List EpubItem :=
  let resolved := book.spine.filterMap (resolveEntry book.documents)
  if resolved.isEmpty then book.documents else resolved

/-!
## Asset Locator (src/epub2md.py, `detect_cover_item`, lines 132-177)
-/

/-- ASCII `str.lower()` on strings (Python `lower` restricted to the ASCII
identifiers and filenames the claims involve). -/
def pyLower (s : String) : String :=
  String.mk (s.data.map Char.toLower)

/-- Python substring containment `sub in hay` on character lists. -/
def listContainsSub (hay sub : List Char) : Bool :=
  sub.isPrefixOf hay ||
    match hay with
    | [] => false
    | _ :: t => listContainsSub t sub

/-- Python `sub in hay` on strings. -/
def strContains (hay sub : String) : Bool :=
  listContainsSub hay.data sub.data

/-- Tier 1 of `detect_cover_item` (lines 149-160): scan the OPF `meta`
entries for `name == "cover"` and resolve its `content` id among the image
items; `Except.error` models the exception a malformed entry raises inside
the `try` block (nothing later in the scan runs then). -/
def tier1Scan (images : List EpubItem) : List MetaEntry → Except Unit (Option EpubItem)
  | [] => .ok none
  | MetaEntry.malformed :: _ => .error ()
  | MetaEntry.nonDict _ :: rest => tier1Scan images rest
  | MetaEntry.pair _ attrs :: rest =>
    if pyLower ((attrs.lookup "name").getD "") == "cover" then
      match attrs.lookup "content" with
      | some cid =>
        if cid ≠ "" then
          match images.find? (fun it => it.id == cid) with
          | some it => .ok (some it)
          | none => tier1Scan images rest
        else tier1Scan images rest
      | none => tier1Scan images rest
    else tier1Scan images rest

/-- Tier 2 predicate (lines 162-165): a non-empty `properties` list
containing `"cover-image"` or `"cover"`. -/
def tier2pred (it : EpubItem) : Bool :=
  !it.properties.isEmpty &&
    (it.properties.contains "cover-image" || it.properties.contains "cover")

/-- Tier 3 candidate predicate (lines 168-173): a cover-ish keyword in the
lowercased filename or identifier. -/
def tier3pred (it : EpubItem) : Bool :=
  (["cover", "couverture", "front", "titlepage"].any
      (fun k => strContains (pyLower it.file_name) k)) ||
    (["cover", "couverture"].any (fun k => strContains (pyLower it.id) k))

/-- The sort key `len(x.file_name or "z" * 999)` (line 175). -/
def coverKey (it : EpubItem) : Nat :=
  if it.file_name == "" then 999 else it.file_name.length

/-- Stable insertion of one element into a key-sorted list: an element
moves left past strictly larger keys only, so input order is preserved on
ties — the semantics of Python's stable `list.sort`. -/
def insertByKey (key : EpubItem → Nat) (x : EpubItem) : List EpubItem → List EpubItem
  | [] => [x]
  | y :: ys => if key y < key x then y :: insertByKey key x ys else x :: y :: ys

/-- Stable sort by key, modelling `candidates.sort(key=...)`. -/
def sortByKey (key : EpubItem → Nat) : List EpubItem → List EpubItem
  | [] => []
  | x :: xs => insertByKey key x (sortByKey key xs)

/-- Tiers 2 and 3 of `detect_cover_item` (lines 161-177). -/
def detect_cover_tier23 (book : Book) : Option EpubItem :=
  match book.images.find? tier2pred with
  | some it => some it
  | none =>
    match sortByKey coverKey (book.images.filter tier3pred) with
    | [] => none
    | c :: _ => some c

/-- `detect_cover_item`: tier 1, with its exception caught and treated as
absence, then tiers 2 and 3. -/
def detect_cover_item (book : Book) : Option EpubItem :=
  match tier1Scan book.images book.metaOPF with
  | .ok (some it) => some it
  | _ => detect_cover_tier23 book

/-!
## Asset Exporter (src/epub2md.py, `export_images`, lines 180-217)

The on-disk writes are filesystem side effects outside the embedding; the
returned mapping — the Asset Map of the spec — is embedded exactly,
including Python-dict overwrite semantics for repeated keys.
-/

/-- `os.path.basename` on character lists: the suffix after the last
`'/'`. -/
def basenameChars (cs : List Char) : List Char :=
  (cs.reverse.takeWhile (fun c => c ≠ '/')).reverse

/-- `os.path.basename`. -/
def pyBasename (s : String) : String :=
  String.mk (basenameChars s.data)

/-- The extension component of `os.path.splitext` on a basename: the
suffix from the last dot, unless every character before that dot is itself
a dot (CPython's leading-dot rule). -/
def splitextExtChars (cs : List Char) : List Char :=
  let afterRev := cs.reverse.takeWhile (fun c => c ≠ '.')
  if afterRev.length == cs.length then []
  else
    let dotIdx := cs.length - afterRev.length - 1
    if (cs.take dotIdx).all (fun c => c == '.') then []
    else cs.drop dotIdx

/-- `ext = os.path.splitext(src_name)[1] or ".jpg"` (line 207). -/
def coverExtFor (srcName : String) : String :=
  let e := String.mk (splitextExtChars srcName.data)
  if e == "" then ".jpg" else e

/-- `os.path.join` for the two-argument uses in the source: an absolute
second component wins; otherwise a separator is inserted unless the first
component is empty or already ends with one. -/
def pyJoin (a b : String) : String :=
  if b.data.head? == some '/' then b
  else if a == "" || a.data.getLast? == some '/' then a ++ b
  else a ++ "/" ++ b

/-- Python `mapping[k] = v` on an insertion-ordered association list:
update in place when the key exists, append otherwise. -/
def dictInsert (m : List (String × String)) (k v : String) : List (String × String) :=
  if m.any (fun kv => kv.1 == k) then
    m.map (fun kv => if kv.1 == k then (kv.1, v) else kv)
  else m ++ [(k, v)]

/-- The destination name `dst_name` of one exported asset (lines 206-210):
the cover — when `cover_src` is truthy and matches — is renamed
`cover.<ext>`, every other asset keeps its original basename. -/
def exportDst (coverSrc : Option String) (item : EpubItem) : String :=
  match coverSrc with
  | some cs => if cs ≠ "" && item.file_name == cs
               then "cover" ++ coverExtFor (pyBasename item.file_name)
               else pyBasename item.file_name
  | none => pyBasename item.file_name

/-- Loop body of `export_images` (lines 204-216): record both the full
internal href and the bare basename against the relative exported path. -/
def exportStep (imgdir : String) (coverSrc : Option String)
    (m : List (String × String)) (item : EpubItem) : List (String × String) :=
  dictInsert
    (dictInsert m item.file_name (pyJoin imgdir (exportDst coverSrc item)))
    (pyBasename item.file_name) (pyJoin imgdir (exportDst coverSrc item))

/-- The Asset Map returned by `export_images(book, outdir, imgdir)`. -/
def export_images_map (book : Book) (imgdir : String) : List (String × String) :=
  book.images.foldl
    (exportStep imgdir ((detect_cover_item book).map (fun it => it.file_name))) []

/-!
## Single-output sub-heading rule (src/epub2md.py,
`convert_epub_to_single_md`, lines 284-293)

Per spine item the source writes `## {seg_title}\n\n` before the converted
markdown exactly when the extracted title is truthy and
`re.search(r"^#\s", md.lstrip(), flags=re.M)` finds nothing.  The html2text
converter and the BeautifulSoup title extractor are external collaborators;
they enter as the opaque inputs `md` and `segTitle`.
-/

/-- Does `#` followed by a whitespace character stand at the head of the
list (the `^#\s` pattern at one match position)? -/
def headingAtStart : List Char → Bool
  | c0 :: c1 :: _ => c0 == '#' && isPySpace c1
  | _ => false

/-- Does `^#\s` match right after some newline of the list? -/
def searchHeadingAfterNl : List Char → Bool
  | [] => false
  | c :: rest => (c == '\n' && headingAtStart rest) || searchHeadingAfterNl rest

/-- `re.search(r"^#\s", s, flags=re.M)`: with MULTILINE, `^` matches at
position 0 and after every newline. -/
def reSearchHeadingM (cs : List Char) : Bool :=
  headingAtStart cs || searchHeadingAfterNl cs

/-- The text appended to the single-output file for one spine item
(lines 289-293): optional `## title` sub-heading, the converted markdown,
and the blank-line separator. -/
def writeSpineSegment (segTitle : Option String) (md : String) : String :=
  (match segTitle with
   | some t =>
     if t ≠ "" && !reSearchHeadingM (pyLStripChars md.data) then
       "## " ++ t ++ "\n\n"
     else ""
   | none => "") ++ md ++ "\n\n"

/-- Declarative reading of `re.search(r"^#\s", ., re.M)` succeeding: some
occurrence of `#` directly followed by whitespace stands at the start of
the text or right after a newline. -/
def MHeadingOccurs (cs : List Char) : Prop :=
  ∃ pre c post, cs = pre ++ '#' :: c :: post ∧ isPySpace c = true ∧
    (pre = [] ∨ ∃ pre2, pre = pre2 ++ ['\n'])

/-!
## Lemmas about the Chapter Splitter
-/

theorem splitStep_current_ne (base : String) (st : SplitSt) (line : List Char) :
    (splitStep base st line).current ≠ [] := by
  unfold splitStep
  cases h : headingTitle line <;> simp
  split
  · simp
  · split <;> simp

theorem foldl_splitStep_current_ne (base : String) :
    ∀ (ls : List (List Char)) (st : SplitSt), st.current ≠ [] →
      (ls.foldl (splitStep base) st).current ≠ [] := by
  intro ls
  induction ls with
  | nil => intro st h; simpa using h
  | cons l ls ih =>
    intro st _
    rw [List.foldl_cons]
    exact ih _ (splitStep_current_ne base st l)

theorem splitLinesChars_ne_nil : ∀ cs : List Char, splitLinesChars cs ≠ [] := by
  intro cs
  induction cs with
  | nil => simp [splitLinesChars]
  | cons c rest ih =>
    by_cases hc : c = '\n'
    · subst hc; simp [splitLinesChars]
    · rw [splitLinesChars]
      · cases h : splitLinesChars rest with
        | nil => simp
        | cons l ls => simp
      · exact hc

theorem joinLinesChars_cons_cons (l l' : List Char) (ls : List (List Char)) :
    joinLinesChars (l :: l' :: ls) = l ++ '\n' :: joinLinesChars (l' :: ls) := by
  rfl

theorem joinLinesChars_splitLinesChars : ∀ cs : List Char,
    joinLinesChars (splitLinesChars cs) = cs := by
  intro cs
  induction cs with
  | nil => rfl
  | cons c rest ih =>
    by_cases hc : c = '\n'
    · subst hc
      rw [splitLinesChars]
      cases h : splitLinesChars rest with
      | nil => exact absurd h (splitLinesChars_ne_nil rest)
      | cons l ls =>
        rw [joinLinesChars_cons_cons]
        rw [h] at ih
        simp [ih]
    · rw [splitLinesChars]
      · cases h : splitLinesChars rest with
        | nil => exact absurd h (splitLinesChars_ne_nil rest)
        | cons l ls =>
          rw [h] at ih
          cases ls with
          | nil =>
            simp only [joinLinesChars] at ih ⊢
            simp [ih]
          | cons l2 ls2 =>
            rw [joinLinesChars_cons_cons]
            rw [joinLinesChars_cons_cons] at ih
            simp [ih]
      · exact hc

/-- Non-heading lines only extend the open chapter. -/
theorem foldl_splitStep_no_heading (base : String) :
    ∀ (ls : List (List Char)) (st : SplitSt),
      (∀ l ∈ ls, headingTitle l = none) →
      ls.foldl (splitStep base) st = { st with current := st.current ++ ls } := by
  intro ls
  induction ls with
  | nil => intro st _; simp
  | cons l ls ih =>
    intro st h
    rw [List.foldl_cons]
    have hl : headingTitle l = none := h l (List.mem_cons_self l ls)
    have hstep : splitStep base st l = { st with current := st.current ++ [l] } := by
      unfold splitStep; rw [hl]
    rw [hstep, ih _ (fun x hx => h x (List.mem_cons_of_mem l hx))]
    simp

/-- After the first heading, each processed line lands in exactly one
chapter: the concatenation of the flushed chapter bodies with the open
chapter grows by precisely the consumed lines. -/
theorem foldl_splitStep_found (base : String) :
    ∀ (ls : List (List Char)) (st : SplitSt), st.found = true → st.current ≠ [] →
      (ls.foldl (splitStep base) st).found = true ∧
      (ls.foldl (splitStep base) st).current ≠ [] ∧
      ((ls.foldl (splitStep base) st).chapters.map Prod.snd).flatten ++
          (ls.foldl (splitStep base) st).current =
        (st.chapters.map Prod.snd).flatten ++ st.current ++ ls := by
  intro ls
  induction ls with
  | nil => intro st hf hc; simpa using ⟨hf, hc⟩
  | cons l ls ih =>
    intro st hf hc
    rw [List.foldl_cons]
    cases hl : headingTitle l with
    | some t =>
      have hstep : splitStep base st l =
          { chapters := st.chapters ++ [(chapterTitle st.title base st.num, st.current)],
            current := [l], title := some t, num := st.num + 1, found := true } := by
        unfold splitStep
        rw [hl]
        simp [hf, hc]
      rw [hstep]
      obtain ⟨h1, h2, h3⟩ :=
        ih { chapters := st.chapters ++ [(chapterTitle st.title base st.num, st.current)],
             current := [l], title := some t, num := st.num + 1, found := true } rfl (by simp)
      refine ⟨h1, h2, ?_⟩
      rw [h3]
      simp
    | none =>
      have hstep : splitStep base st l = { st with current := st.current ++ [l] } := by
        unfold splitStep; rw [hl]
      rw [hstep]
      obtain ⟨h1, h2, h3⟩ := ih { st with current := st.current ++ [l] } hf (by simp [hc])
      refine ⟨h1, h2, ?_⟩
      rw [h3]
      simp

/-- `splitIntoChaptersLines` never returns an empty chapter list on a
non-empty line list. -/
theorem splitIntoChaptersLines_ne_nil (base : String) (ls : List (List Char))
    (h : ls ≠ []) : splitIntoChaptersLines base ls ≠ [] := by
  unfold splitIntoChaptersLines splitFlush
  cases ls with
  | nil => exact absurd rfl h
  | cons l ls' =>
    have hcur : ((l :: ls').foldl (splitStep base) ⟨[], [], none, 1, false⟩).current ≠ [] := by
      rw [List.foldl_cons]
      exact foldl_splitStep_current_ne base ls' _ (splitStep_current_ne base _ l)
    simp only [List.isEmpty_eq_true] at *
    rw [if_pos]
    · simp
    · simpa using hcur

/-- The flush always contributes exactly the open chapter's lines. -/
theorem splitFlush_flatten (base : String) (st : SplitSt) :
    ((splitFlush base st).map Prod.snd).flatten =
      (st.chapters.map Prod.snd).flatten ++ st.current := by
  unfold splitFlush
  by_cases h : st.current.isEmpty
  · rw [if_neg (by simp [h])]
    rw [List.isEmpty_eq_true] at h
    simp [h]
  · rw [if_pos (by simp [h])]
    simp

/-- Decomposition of a line list at its first heading line. -/
theorem exists_first_heading :
    ∀ ls : List (List Char), ls.any isHeadingLine = true →
      ∃ pre h rest, ls = pre ++ h :: rest ∧
        (∀ l ∈ pre, headingTitle l = none) ∧ isHeadingLine h = true ∧
        ls.dropWhile (fun l => !isHeadingLine l) = h :: rest := by
  intro ls
  induction ls with
  | nil => simp
  | cons c cs ih =>
    intro hany
    by_cases hc : isHeadingLine c = true
    · exact ⟨[], c, cs, by simp, by simp, hc, by simp [List.dropWhile_cons, hc]⟩
    · have hc' : isHeadingLine c = false := by simpa using hc
      have hnone : headingTitle c = none := by
        unfold isHeadingLine at hc'
        exact Option.not_isSome_iff_eq_none.mp (by simp [hc'])
      have hany' : cs.any isHeadingLine = true := by
        simpa [List.any_cons, hc'] using hany
      obtain ⟨pre, h, rest, h1, h2, h3, h4⟩ := ih hany'
      refine ⟨c :: pre, h, rest, by simp [h1], ?_, h3, ?_⟩
      · intro l hl
        rcases List.mem_cons.mp hl with rfl | hl
        · exact hnone
        · exact h2 l hl
      · simp [List.dropWhile_cons, hc', h4]

/-- CLAIM C1 (amended).  Every line at or after the first level-1/level-2
heading line — every line, when no heading exists — is assigned to exactly
one chapter and in order: the concatenation of the chapter bodies' line
lists equals exactly that suffix of the input line list.  Lines strictly
before the first heading are discarded (see the counterexample), contrary
to the original claim. -/
theorem split_chapter_lines_partition_after_first_heading
    (base : String) (ls : List (List Char)) :
    ((splitIntoChaptersLines base ls).map Prod.snd).flatten =
      dropBeforeFirstHeading ls := by
  unfold dropBeforeFirstHeading splitIntoChaptersLines
  by_cases hany : ls.any isHeadingLine = true
  · rw [if_pos hany]
    obtain ⟨pre, h, rest, hdecomp, hpre, hh, hdrop⟩ := exists_first_heading ls hany
    rw [hdrop, hdecomp]
    rw [List.foldl_append]
    rw [foldl_splitStep_no_heading base pre ⟨[], [], none, 1, false⟩ hpre]
    obtain ⟨t, ht⟩ := Option.isSome_iff_exists.mp (by simpa [isHeadingLine] using hh)
    rw [List.foldl_cons]
    have hstep : splitStep base ⟨[], [] ++ pre, none, 1, false⟩ h =
        ⟨[], [h], some t, 1, true⟩ := by
      unfold splitStep
      rw [ht]
      simp
    rw [hstep]
    obtain ⟨_, _, h3⟩ := foldl_splitStep_found base rest
      ⟨[], [h], some t, 1, true⟩ rfl (by simp)
    rw [splitFlush_flatten, h3]
    simp
  · rw [if_neg hany]
    have hnone : ∀ l ∈ ls, headingTitle l = none := by
      intro l hl
      have : isHeadingLine l = false := by
        by_contra hcon
        exact hany (List.any_eq_true.mpr ⟨l, hl, by simpa using hcon⟩)
      unfold isHeadingLine at this
      exact Option.not_isSome_iff_eq_none.mp (by simp [this])
    rw [foldl_splitStep_no_heading base ls ⟨[], [], none, 1, false⟩ hnone]
    rw [splitFlush_flatten]
    simp

/-- CLAIM C1 (counterexample).  `split_into_chapters` applied to
`"hello\n# A"` drops the line `"hello"` that precedes the first heading:
the output is a single chapter whose body is exactly `"# A"`, and no
chapter body contains `"hello"` — refuting that text before the first
heading boundary is not discarded. -/
theorem split_discards_prefix_counterexample :
    split_into_chapters "hello\n# A" "Chapitre" = [("A", "# A")] ∧
    ∀ p ∈ split_into_chapters "hello\n# A" "Chapitre",
      strContains p.2 "hello" = false := by
  decide

/-- CLAIM C2 (counterexample).  Splitting `"# A\nhello\n## B\nworld\n"`
yields the bodies `"# A\nhello"` (without the trailing newline the claim
asserts) and `"## B\nworld\n"`, and plain concatenation of the bodies does
NOT reproduce the input: the newline at each chapter boundary is consumed
by the split. -/
theorem split_roundtrip_counterexample :
    split_into_chapters "# A\nhello\n## B\nworld\n" "Chapitre" =
      [("A", "# A\nhello"), ("B", "## B\nworld\n")] ∧
    String.join ((split_into_chapters "# A\nhello\n## B\nworld\n" "Chapitre").map
        Prod.snd) ≠ "# A\nhello\n## B\nworld\n" := by
  decide

/-- CLAIM C2 (amended).  Splitting `"# A\nhello\n## B\nworld\n"` yields
exactly two chapters titled `"A"` and `"B"` with bodies `"# A\nhello"` and
`"## B\nworld\n"`; re-inserting a single newline separator between
consecutive chapter bodies reproduces the input exactly (the split
partitions the line stream; one boundary newline per adjacent chapter pair
is held by neither body). -/
theorem split_roundtrip_newline_separator :
    split_into_chapters "# A\nhello\n## B\nworld\n" "Chapitre" =
      [("A", "# A\nhello"), ("B", "## B\nworld\n")] ∧
    String.intercalate "\n"
        ((split_into_chapters "# A\nhello\n## B\nworld\n" "Chapitre").map Prod.snd) =
      "# A\nhello\n## B\nworld\n" := by
  decide

/-- CLAIM C10.  For every input string — the empty string included —
`split_into_chapters` returns the chapter list produced by the scan-and-
flush loop unchanged and that list is non-empty: the final flush always
emits at least one chapter, so the trailing `if not chapters` fallback
branch never fires. -/
theorem split_into_chapters_fallback_unreachable (content : String) (base : String) :
    split_into_chapters content base =
      (splitIntoChaptersLines base (splitLinesChars content.data)).map
        (fun p => (p.1, String.mk (joinLinesChars p.2))) ∧
    split_into_chapters content base ≠ [] := by
  have hne : splitIntoChaptersLines base (splitLinesChars content.data) ≠ [] :=
    splitIntoChaptersLines_ne_nil base _ (splitLinesChars_ne_nil content.data)
  have hmapne : (splitIntoChaptersLines base (splitLinesChars content.data)).map
      (fun p => (p.1, String.mk (joinLinesChars p.2))) ≠ [] := by
    simpa using hne
  unfold split_into_chapters
  rw [if_neg (by simpa using hmapne)]
  exact ⟨rfl, hmapne⟩

/-- Shared helper: the splitter always returns at least one chapter. -/
theorem split_into_chapters_ne_nil (content : String) (base : String) :
    split_into_chapters content base ≠ [] := by
  have hne : splitIntoChaptersLines base (splitLinesChars content.data) ≠ [] :=
    splitIntoChaptersLines_ne_nil base _ (splitLinesChars_ne_nil content.data)
  unfold split_into_chapters
  by_cases hc : ((splitIntoChaptersLines base (splitLinesChars content.data)).map
      (fun p => (p.1, String.mk (joinLinesChars p.2)))).isEmpty
  · rw [List.isEmpty_eq_true, List.map_eq_nil_iff] at hc
    exact absurd hc hne
  · rw [if_neg hc]
    intro hcon
    rw [hcon] at hc
    exact hc rfl

/-!
## CLAIM C9: reverse-direction fatal path
-/

/-- CLAIM C9.  When every chapter produced from the flat input has empty
trimmed content, `convert_md_to_epub` raises the conversion error instead
of succeeding (so the packaging step writing the output file, reached only
on success, never runs), and `main` maps this to exit code 1.  The
markdown-to-HTML converter is irrelevant here (empty chapters are filtered
before conversion) and is quantified over. -/
theorem convert_fatal_on_all_blank (content : String) (md2html : String → String)
    (h : ∀ p ∈ split_into_chapters content "Chapitre", pyStrip p.2 = "") :
    convert_md_to_epub content md2html =
      Except.error "Aucun chapitre valide trouvé pour créer l'EPUB" ∧
    mainExitCode (convert_md_to_epub content md2html) = 1 := by
  have hne := split_into_chapters_ne_nil content "Chapitre"
  have hfm : (split_into_chapters content "Chapitre").filterMap (fun p =>
      if pyStrip p.2 == "" then none
      else
        let hh := md2html p.2
        if pyStrip hh == "" then none else some (p.1, hh)) = [] := by
    rw [List.filterMap_eq_nil_iff]
    intro p hp
    rw [h p hp]
    simp
  have hres : convert_md_to_epub content md2html =
      Except.error "Aucun chapitre valide trouvé pour créer l'EPUB" := by
    unfold convert_md_to_epub
    rw [if_neg (by simpa using hne)]
    simp only [hfm]
    rfl
  exact ⟨hres, by rw [hres]; rfl⟩

/-- Witness for C9 at the concrete whitespace-only input `"   \n\t "`. -/
theorem convert_fatal_on_all_blank_witness :
    convert_md_to_epub "   \n\t " (fun s => s) =
      Except.error "Aucun chapitre valide trouvé pour créer l'EPUB" ∧
    mainExitCode (convert_md_to_epub "   \n\t " (fun s => s)) = 1 :=
  convert_fatal_on_all_blank "   \n\t " (fun s => s) (by decide)

/-!
## CLAIM C3: the single-output sub-heading rule
-/

theorem headingAtStart_iff (cs : List Char) :
    headingAtStart cs = true ↔
      ∃ c post, cs = '#' :: c :: post ∧ isPySpace c = true := by
  cases cs with
  | nil => simp [headingAtStart]
  | cons c0 rest =>
    cases rest with
    | nil => simp [headingAtStart]
    | cons c1 t =>
      unfold headingAtStart
      constructor
      · intro hb
        have h0 : c0 = '#' := by
          have := (Bool.and_eq_true _ _).mp hb
          exact beq_iff_eq.mp this.1
        have h1 : isPySpace c1 = true := ((Bool.and_eq_true _ _).mp hb).2
        exact ⟨c1, t, by rw [h0], h1⟩
      · rintro ⟨c, post, heq, hws⟩
        obtain ⟨h0, h1, h2⟩ : c0 = '#' ∧ c1 = c ∧ t = post := by
          injection heq with a b
          injection b with b1 b2
          exact ⟨a, b1, b2⟩
        subst h0; subst h1
        simp [hws]

theorem searchHeadingAfterNl_iff (cs : List Char) :
    searchHeadingAfterNl cs = true ↔
      ∃ pre2 c post, cs = pre2 ++ '\n' :: '#' :: c :: post ∧ isPySpace c = true := by
  induction cs with
  | nil => simp [searchHeadingAfterNl]
  | cons d rest ih =>
    unfold searchHeadingAfterNl
    rw [Bool.or_eq_true, Bool.and_eq_true, beq_iff_eq, headingAtStart_iff, ih]
    constructor
    · rintro (⟨rfl, c, post, rfl, hws⟩ | ⟨pre2, c, post, rfl, hws⟩)
      · exact ⟨[], c, post, rfl, hws⟩
      · exact ⟨d :: pre2, c, post, rfl, hws⟩
    · rintro ⟨pre2, c, post, heq, hws⟩
      cases pre2 with
      | nil =>
        left
        injection heq with h1 h2
        exact ⟨h1, c, post, h2, hws⟩
      | cons p ps =>
        right
        injection heq with h1 h2
        exact ⟨ps, c, post, h2, hws⟩

theorem reSearchHeadingM_iff (cs : List Char) :
    reSearchHeadingM cs = true ↔ MHeadingOccurs cs := by
  unfold reSearchHeadingM MHeadingOccurs
  rw [Bool.or_eq_true, headingAtStart_iff, searchHeadingAfterNl_iff]
  constructor
  · rintro (⟨c, post, rfl, hws⟩ | ⟨pre2, c, post, rfl, hws⟩)
    · exact ⟨[], c, post, rfl, hws, Or.inl rfl⟩
    · exact ⟨pre2 ++ ['\n'], c, post, by simp, hws, Or.inr ⟨pre2, rfl⟩⟩
  · rintro ⟨pre, c, post, rfl, hws, (rfl | ⟨pre2, rfl⟩)⟩
    · exact Or.inl ⟨c, post, rfl, hws⟩
    · exact Or.inr ⟨pre2, c, post, by simp, hws⟩

/-- CLAIM C3 (amended).  The sub-heading is prepended iff the extracted
title is present and non-empty AND the multiline search `^#\s` over the
whole converted content (after stripping its leading whitespace) finds
nothing — i.e. no line anywhere, not just the first, starts a top-level
heading.  A top-level heading on a LATER line therefore also suppresses
the sub-heading, contrary to the original claim (see the
counterexample). -/
theorem singlemd_subheading_rule :
    (∀ t md, writeSpineSegment (some t) md = "## " ++ t ++ "\n\n" ++ md ++ "\n\n" ↔
      t ≠ "" ∧ reSearchHeadingM (pyLStripChars md.data) = false) ∧
    (∀ cs, reSearchHeadingM cs = true ↔ MHeadingOccurs cs) ∧
    (∀ md, writeSpineSegment none md = md ++ "\n\n") := by
  refine ⟨?_, reSearchHeadingM_iff, fun md => rfl⟩
  intro t md
  have hlenNe : ¬ md ++ "\n\n" = "## " ++ t ++ "\n\n" ++ md ++ "\n\n" := by
    intro heq
    have hlen := congrArg String.length heq
    simp only [String.length_append] at hlen
    have h3 : "## ".length = 3 := rfl
    have h2 : "\n\n".length = 2 := rfl
    rw [h2, h3] at hlen
    omega
  by_cases ht : t = ""
  · subst ht
    have hres : writeSpineSegment (some "") md = md ++ "\n\n" := by
      dsimp only [writeSpineSegment]
      rw [if_neg (by simp)]
      simp
    rw [hres]
    constructor
    · intro heq
      exact absurd heq hlenNe
    · rintro ⟨h, _⟩
      exact absurd rfl h
  · by_cases hr : reSearchHeadingM (pyLStripChars md.data) = true
    · have hres : writeSpineSegment (some t) md = md ++ "\n\n" := by
        dsimp only [writeSpineSegment]
        rw [if_neg (by simp [hr])]
        simp
      rw [hres]
      constructor
      · intro heq
        exact absurd heq hlenNe
      · rintro ⟨_, hf⟩
        rw [hr] at hf
        exact absurd hf (by simp)
    · have hr' : reSearchHeadingM (pyLStripChars md.data) = false := by
        simpa using hr
      have hres : writeSpineSegment (some t) md =
          "## " ++ t ++ "\n\n" ++ md ++ "\n\n" := by
        dsimp only [writeSpineSegment]
        rw [if_pos (by simp [ht, hr'])]
      rw [hres]
      simp [ht, hr']

/-- Witness for C3 at a title-bearing fragment with no heading line. -/
theorem singlemd_subheading_rule_witness :
    writeSpineSegment (some "T") "hello" = "## " ++ "T" ++ "\n\n" ++ "hello" ++ "\n\n" :=
  (singlemd_subheading_rule.1 "T" "hello").mpr (by constructor <;> decide)

/-- CLAIM C3 (counterexample).  A fragment whose converted content starts
with non-heading text but contains a top-level heading on a later line
does NOT get the sub-heading prepended — the multiline `^#\s` search finds
the later heading and suppresses it, refuting the original claim. -/
theorem singlemd_subheading_counterexample :
    writeSpineSegment (some "T") "intro\n# Later" = "intro\n# Later\n\n" ∧
    writeSpineSegment (some "T") "intro\n# Later" ≠ "## T\n\nintro\n# Later\n\n" := by
  decide

/-!
## CLAIM C5: reading-order resolution
-/

/-- `find?` by identifier returns the unique member with that id when the
ids are duplicate-free. -/
theorem find_by_id_of_nodup :
    ∀ (l : List EpubItem), (l.map EpubItem.id).Nodup →
      ∀ d ∈ l, l.find? (fun x => x.id == d.id) = some d := by
  intro l
  induction l with
  | nil => simp
  | cons x xs ih =>
    intro hnodup d hd
    rw [List.map_cons, List.nodup_cons] at hnodup
    rcases List.mem_cons.mp hd with rfl | hd'
    · exact List.find?_cons_of_pos _ (by simp)
    · have hne : (x.id == d.id) = false := by
        rw [beq_eq_false_iff_ne]
        intro heq
        exact hnodup.1 (heq ▸ List.mem_map_of_mem EpubItem.id hd')
      rw [List.find?_cons_of_neg _ (by simp [hne])]
      exact ih hnodup.2 d hd'

/-- The dict-comprehension lookup resolves each member's own id when the
ids are duplicate-free. -/
theorem docById_of_nodup (docs : List EpubItem)
    (hnodup : (docs.map EpubItem.id).Nodup) (d : EpubItem) (hd : d ∈ docs) :
    docById docs d.id = some d := by
  unfold docById
  refine find_by_id_of_nodup docs.reverse ?_ d (by simpa using hd)
  rw [List.map_reverse, List.nodup_reverse]
  exact hnodup

/-- A fully valid declared order resolves entry by entry to exactly the
declared fragments. -/
theorem filterMap_resolve_of_valid (docs : List EpubItem)
    (hnodup : (docs.map EpubItem.id).Nodup) :
    ∀ (spine : List SpineEntry) (L : List EpubItem),
      spine.map entryIdref = L.map (fun d => some d.id) →
      (∀ d ∈ L, d ∈ docs) →
      (∀ d ∈ L, d.id ≠ "") →
      spine.filterMap (resolveEntry docs) = L := by
  intro spine
  induction spine with
  | nil =>
    intro L hmap _ _
    have : L = [] := by
      cases L with
      | nil => rfl
      | cons a as => simp at hmap
    simp [this]
  | cons e es ih =>
    intro L hmap hmem hid
    cases L with
    | nil => simp at hmap
    | cons d L' =>
      rw [List.map_cons, List.map_cons] at hmap
      have hhead : entryIdref e = some d.id := (List.cons.injEq _ _ _ _ ▸ hmap).1
      have htail : es.map entryIdref = L'.map (fun d => some d.id) :=
        (List.cons.injEq _ _ _ _ ▸ hmap).2
      have hdmem : d ∈ docs := hmem d (List.mem_cons_self d L')
      have hdid : d.id ≠ "" := hid d (List.mem_cons_self d L')
      have hres : resolveEntry docs e = some d := by
        unfold resolveEntry
        rw [hhead]
        show (if d.id ≠ "" then docById docs d.id else none) = some d
        rw [if_pos hdid]
        exact docById_of_nodup docs hnodup d hdmem
      rw [List.filterMap_cons_some hres]
      rw [ih L' htail (fun x hx => hmem x (List.mem_cons_of_mem d hx))
          (fun x hx => hid x (List.mem_cons_of_mem d hx))]

/-- CLAIM C5.  (1) For a declared order whose entries resolve validly to
fragments `L` (ids present, non-empty and duplicate-free), the resolver
yields exactly `L` — the declared order. (2) An unresolvable entry is
skipped silently: removing it from the spine does not change the output.
(3) If the entire declared order resolves to nothing, the resolver yields
all fragments in native collection order. (4) Hence the traversal is
non-empty whenever at least one fragment exists. -/
theorem iter_spine_items_spec :
    (∀ (book : Book) (L : List EpubItem),
      (book.documents.map EpubItem.id).Nodup →
      book.spine.map entryIdref = L.map (fun d => some d.id) →
      (∀ d ∈ L, d ∈ book.documents) →
      (∀ d ∈ L, d.id ≠ "") →
      L ≠ [] →
      iter_spine_items book = L) ∧
    (∀ (book : Book) (e : SpineEntry) (s1 s2 : List SpineEntry),
      book.spine = s1 ++ e :: s2 →
      resolveEntry book.documents e = none →
      iter_spine_items book =
        iter_spine_items ⟨book.documents, book.images, s1 ++ s2, book.metaOPF⟩) ∧
    (∀ book : Book,
      (∀ e ∈ book.spine, resolveEntry book.documents e = none) →
      iter_spine_items book = book.documents) ∧
    (∀ book : Book, book.documents ≠ [] → iter_spine_items book ≠ []) := by
  refine ⟨?_, ?_, ?_, ?_⟩
  · intro book L hnodup hmap hmem hid hne
    unfold iter_spine_items
    rw [filterMap_resolve_of_valid book.documents hnodup book.spine L hmap hmem hid]
    rw [if_neg (by simpa using hne)]
  · intro book e s1 s2 hspine hnone
    have hfm : (s1 ++ e :: s2).filterMap (resolveEntry book.documents) =
        (s1 ++ s2).filterMap (resolveEntry book.documents) := by
      rw [List.filterMap_append, List.filterMap_cons_none hnone, ← List.filterMap_append]
    unfold iter_spine_items
    rw [hspine]
    dsimp only
    rw [hfm]
  · intro book hall
    unfold iter_spine_items
    rw [List.filterMap_eq_nil_iff.mpr hall]
    rfl
  · intro book hne
    unfold iter_spine_items
    by_cases hres : (book.spine.filterMap (resolveEntry book.documents)).isEmpty
    · rw [if_pos hres]
      exact hne
    · rw [if_neg hres]
      simpa using hres

/-- Witness for C5: a two-fragment book whose spine reverses the native
order (part 1), and a book with an entirely unresolvable spine (part 3). -/
theorem iter_spine_items_spec_witness :
    iter_spine_items ⟨[⟨"d1", "c1.xhtml", []⟩, ⟨"d2", "c2.xhtml", []⟩], [],
        [SpineEntry.tup (some "d2"), SpineEntry.direct "d1"], []⟩ =
      [⟨"d2", "c2.xhtml", []⟩, ⟨"d1", "c1.xhtml", []⟩] ∧
    iter_spine_items ⟨[⟨"d1", "c1.xhtml", []⟩, ⟨"d2", "c2.xhtml", []⟩], [],
        [SpineEntry.direct "zz", SpineEntry.tup none], []⟩ =
      [⟨"d1", "c1.xhtml", []⟩, ⟨"d2", "c2.xhtml", []⟩] := by
  constructor
  · exact iter_spine_items_spec.1 _ [⟨"d2", "c2.xhtml", []⟩, ⟨"d1", "c1.xhtml", []⟩]
      (by decide) (by decide) (by decide) (by decide) (by decide)
  · exact iter_spine_items_spec.2.2.1 _ (by decide)

/-!
## CLAIM C8: cover detection error recovery
-/

/-- CLAIM C8.  When reading/interpreting the legacy tier-1 cover metadata
raises (modelled: `tier1Scan` returns `Except.error`), `detect_cover_item`
does not propagate the error: it returns exactly what it returns on a book
with no OPF metadata at all — tier 1 treated as absent — and that value is
exactly the tier-2/tier-3 fallback chain. -/
theorem detect_cover_tier1_error_recovery (book : Book)
    (h : tier1Scan book.images book.metaOPF = Except.error ()) :
    detect_cover_item book =
      detect_cover_item ⟨book.documents, book.images, book.spine, []⟩ ∧
    detect_cover_item book = detect_cover_tier23 book := by
  constructor
  · unfold detect_cover_item
    rw [h]
    rfl
  · unfold detect_cover_item
    rw [h]

/-- Witness for C8: a malformed metadata entry together with a tier-2
(property-marked) cover image. -/
theorem detect_cover_tier1_error_recovery_witness :
    detect_cover_item ⟨[], [⟨"x", "photo.png", ["cover-image"]⟩], [],
        [MetaEntry.malformed]⟩ =
      detect_cover_item ⟨[], [⟨"x", "photo.png", ["cover-image"]⟩], [], []⟩ ∧
    detect_cover_item ⟨[], [⟨"x", "photo.png", ["cover-image"]⟩], [],
        [MetaEntry.malformed]⟩ =
      detect_cover_tier23 ⟨[], [⟨"x", "photo.png", ["cover-image"]⟩], [],
        [MetaEntry.malformed]⟩ :=
  detect_cover_tier1_error_recovery _ rfl

/-!
## CLAIM C6: heuristic cover tie-break
-/

theorem insertByKey_ne_nil (key : EpubItem → Nat) (x : EpubItem) :
    ∀ l : List EpubItem, insertByKey key x l ≠ [] := by
  intro l
  cases l with
  | nil => simp [insertByKey]
  | cons y ys =>
    unfold insertByKey
    by_cases h : key y < key x
    · rw [if_pos h]
      simp
    · rw [if_neg h]
      simp

theorem sortByKey_ne_nil (key : EpubItem → Nat) (l : List EpubItem) (h : l ≠ []) :
    sortByKey key l ≠ [] := by
  cases l with
  | nil => exact absurd rfl h
  | cons x xs =>
    unfold sortByKey
    exact insertByKey_ne_nil key x _

/-- The head of the stable key-sort is the first-encountered minimum:
everything before it in the input has a strictly larger key, and nothing
anywhere has a smaller one. -/
theorem sortByKey_head_min (key : EpubItem → Nat) :
    ∀ (l : List EpubItem) (c : EpubItem) (rest : List EpubItem),
      sortByKey key l = c :: rest →
      ∃ pre post, l = pre ++ c :: post ∧
        (∀ x ∈ pre, key c < key x) ∧ (∀ x ∈ l, key c ≤ key x) := by
  intro l
  induction l with
  | nil => intro c rest h; simp [sortByKey] at h
  | cons x xs ih =>
    intro c rest h
    unfold sortByKey at h
    cases hs : sortByKey key xs with
    | nil =>
      cases xs with
      | nil =>
        rw [hs] at h
        unfold insertByKey at h
        injection h with h1 _
        subst h1
        exact ⟨[], [], rfl, by simp, by simp⟩
      | cons y ys => exact absurd hs (sortByKey_ne_nil key (y :: ys) (by simp))
    | cons c' r' =>
      rw [hs] at h
      unfold insertByKey at h
      by_cases hk : key c' < key x
      · rw [if_pos hk] at h
        injection h with h1 _
        subst h1
        obtain ⟨pre', post', hdecomp, hstrict, hmin⟩ := ih c' r' hs
        refine ⟨x :: pre', post', by simp [hdecomp], ?_, ?_⟩
        · intro y hy
          rcases List.mem_cons.mp hy with rfl | hy'
          · exact hk
          · exact hstrict y hy'
        · intro y hy
          rcases List.mem_cons.mp hy with rfl | hy'
          · exact Nat.le_of_lt hk
          · exact hmin y hy'
      · rw [if_neg hk] at h
        injection h with h1 _
        subst h1
        obtain ⟨pre', post', hdecomp, hstrict, hmin⟩ := ih c' r' hs
        refine ⟨[], xs, rfl, by simp, ?_⟩
        intro y hy
        rcases List.mem_cons.mp hy with rfl | hy'
        · exact Nat.le_refl _
        · exact Nat.le_trans (Nat.le_of_not_lt hk) (hmin y hy')

/-- CLAIM C6.  When the heuristic tier runs (tier 1 found no match — or
raised — and tier 2 found none) and at least one image matches the keyword
set, the selected cover is the candidate with the shortest filename-key,
ties broken by stable first-encountered order: every earlier candidate has
a strictly larger key and no candidate has a smaller one.  In particular,
between `"cover-big.jpg"` and `"cover.jpg"`, `"cover.jpg"` is selected. -/
theorem detect_cover_shortest_stable :
    (∀ book : Book,
      (tier1Scan book.images book.metaOPF = Except.ok none ∨
        tier1Scan book.images book.metaOPF = Except.error ()) →
      book.images.find? tier2pred = none →
      book.images.filter tier3pred ≠ [] →
      ∃ c pre post, detect_cover_item book = some c ∧
        book.images.filter tier3pred = pre ++ c :: post ∧
        (∀ x ∈ pre, coverKey c < coverKey x) ∧
        (∀ x ∈ book.images.filter tier3pred, coverKey c ≤ coverKey x)) ∧
    detect_cover_item ⟨[], [⟨"id1", "cover-big.jpg", []⟩, ⟨"id2", "cover.jpg", []⟩],
        [], []⟩ = some ⟨"id2", "cover.jpg", []⟩ := by
  constructor
  · intro book h1 h2 h3
    cases hs : sortByKey coverKey (book.images.filter tier3pred) with
    | nil => exact absurd hs (sortByKey_ne_nil coverKey _ h3)
    | cons c rest =>
      obtain ⟨pre, post, hdecomp, hstrict, hmin⟩ :=
        sortByKey_head_min coverKey _ c rest hs
      have hdet : detect_cover_item book = some c := by
        unfold detect_cover_item
        have h23 : detect_cover_tier23 book = some c := by
          unfold detect_cover_tier23
          rw [h2, hs]
        rcases h1 with h | h <;> rw [h] <;> exact h23
      exact ⟨c, pre, post, hdet, hdecomp, hstrict, hmin⟩
  · decide

/-!
## Character toolkit for the slugify proofs
-/

theorem uint32_le_iff_toNat_le (a b : UInt32) : a ≤ b ↔ a.toNat ≤ b.toNat := by
  rw [UInt32.le_def, BitVec.le_def]
  rfl

theorem char_le_iff_toNat_le (a b : Char) : a ≤ b ↔ a.toNat ≤ b.toNat := by
  rw [Char.le_def, uint32_le_iff_toNat_le]
  rfl

theorem char_isUpper_eq_false (c : Char) (h : ¬(65 ≤ c.toNat ∧ c.toNat ≤ 90)) :
    c.isUpper = false := by
  unfold Char.isUpper
  simp only [Bool.and_eq_false_iff, decide_eq_false_iff_not, ge_iff_le]
  rcases Nat.lt_or_ge c.toNat 65 with h1 | h1
  · left
    rw [uint32_le_iff_toNat_le]
    show ¬ (65 ≤ c.toNat)
    omega
  · right
    rw [uint32_le_iff_toNat_le]
    show ¬ (c.toNat ≤ 90)
    omega

theorem char_isUpper_toNat (c : Char) (h : c.isUpper = true) :
    65 ≤ c.toNat ∧ c.toNat ≤ 90 := by
  by_contra hcon
  rw [char_isUpper_eq_false c hcon] at h
  exact absurd h (by simp)

theorem char_isLower_toNat (c : Char) (h : c.isLower = true) :
    97 ≤ c.toNat ∧ c.toNat ≤ 122 := by
  unfold Char.isLower at h
  rw [Bool.and_eq_true, decide_eq_true_eq, decide_eq_true_eq] at h
  obtain ⟨h1, h2⟩ := h
  rw [ge_iff_le, uint32_le_iff_toNat_le] at h1
  rw [uint32_le_iff_toNat_le] at h2
  exact ⟨h1, h2⟩

theorem char_isDigit_toNat (c : Char) (h : c.isDigit = true) :
    48 ≤ c.toNat ∧ c.toNat ≤ 57 := by
  unfold Char.isDigit at h
  rw [Bool.and_eq_true, decide_eq_true_eq, decide_eq_true_eq] at h
  obtain ⟨h1, h2⟩ := h
  rw [ge_iff_le, uint32_le_iff_toNat_le] at h1
  rw [uint32_le_iff_toNat_le] at h2
  exact ⟨h1, h2⟩

theorem char_toNat_le_of_le {a b : Char} (h : a ≤ b) : a.toNat ≤ b.toNat :=
  (char_le_iff_toNat_le a b).mp h

theorem char_le_of_toNat_le {a b : Char} (h : a.toNat ≤ b.toNat) : a ≤ b :=
  (char_le_iff_toNat_le a b).mpr h

theorem char_ofNat_toNat (n : Nat) (h1 : 97 ≤ n) (h2 : n ≤ 122) :
    (Char.ofNat n).toNat = n := by
  rw [Char.ofNat, dif_pos (Or.inl (by omega))]
  rfl

theorem toLower_eq_of_range (c : Char) (h : 65 ≤ c.toNat ∧ c.toNat ≤ 90) :
    Char.toLower c = Char.ofNat (c.toNat + 32) := by
  unfold Char.toLower
  rw [if_pos ⟨h.1, h.2⟩]

theorem toLower_eq_self_of_toNat (c : Char) (h : ¬(65 ≤ c.toNat ∧ c.toNat ≤ 90)) :
    Char.toLower c = c := by
  unfold Char.toLower
  rw [if_neg (by exact fun hc => h ⟨hc.1, hc.2⟩)]

theorem toLower_isUpper_false (c : Char) : (Char.toLower c).isUpper = false := by
  by_cases h : 65 ≤ c.toNat ∧ c.toNat ≤ 90
  · rw [toLower_eq_of_range c h]
    apply char_isUpper_eq_false
    rw [char_ofNat_toNat (c.toNat + 32) (by omega) (by omega)]
    omega
  · rw [toLower_eq_self_of_toNat c h]
    exact char_isUpper_eq_false c h

theorem isPySpace_toNat_le (c : Char) (h : isPySpace c = true) : c.toNat ≤ 32 := by
  have hcases : c = ' ' ∨ c = '\t' ∨ c = '\n' ∨ c = '\r' ∨ c = '\x0b' ∨ c = '\x0c' := by
    simpa [isPySpace, or_assoc] using h
  rcases hcases with rfl | rfl | rfl | rfl | rfl | rfl <;> decide

theorem toLower_ws_eq_self (c : Char) (h : isPySpace (Char.toLower c) = true) :
    Char.toLower c = c := by
  by_cases hr : 65 ≤ c.toNat ∧ c.toNat ≤ 90
  · exfalso
    have hlow := toLower_eq_of_range c hr
    have : (Char.toLower c).toNat = c.toNat + 32 := by
      rw [hlow]
      exact char_ofNat_toNat _ (by omega) (by omega)
    have := isPySpace_toNat_le _ h
    omega
  · exact toLower_eq_self_of_toNat c hr

/-!
## List membership toolkit
-/

theorem mem_of_mem_dropWhile {p : Char → Bool} :
    ∀ (l : List Char) (c : Char), c ∈ l.dropWhile p → c ∈ l := by
  intro l
  induction l with
  | nil => simp
  | cons x xs ih =>
    intro c hc
    rw [List.dropWhile_cons] at hc
    by_cases hx : p x = true
    · rw [if_pos hx] at hc
      exact List.mem_cons_of_mem x (ih c hc)
    · rw [if_neg hx] at hc
      exact hc

theorem mem_dropWhile_of_not {p : Char → Bool} :
    ∀ (l : List Char) (c : Char), c ∈ l → p c = false → c ∈ l.dropWhile p := by
  intro l
  induction l with
  | nil => simp
  | cons x xs ih =>
    intro c hc hp
    rw [List.dropWhile_cons]
    by_cases hx : p x = true
    · rw [if_pos hx]
      rcases List.mem_cons.mp hc with rfl | hc'
      · rw [hx] at hp
        exact absurd hp (by simp)
      · exact ih c hc' hp
    · rw [if_neg hx]
      exact hc

theorem mem_of_mem_pyStripChars (l : List Char) (c : Char)
    (h : c ∈ pyStripChars l) : c ∈ l := by
  unfold pyStripChars at h
  rw [List.mem_reverse] at h
  have h1 := mem_of_mem_dropWhile _ _ h
  rw [List.mem_reverse] at h1
  exact mem_of_mem_dropWhile _ _ h1

theorem mem_pyStripChars_of_nonws (l : List Char) (c : Char)
    (hc : c ∈ l) (hws : isPySpace c = false) : c ∈ pyStripChars l := by
  unfold pyStripChars
  rw [List.mem_reverse]
  apply mem_dropWhile_of_not _ _ _ hws
  rw [List.mem_reverse]
  exact mem_dropWhile_of_not _ _ hc hws

theorem pyStripChars_eq_self (l : List Char) (h : ∀ c ∈ l, isPySpace c = false) :
    pyStripChars l = l := by
  have hdw : ∀ m : List Char, (∀ c ∈ m, isPySpace c = false) →
      m.dropWhile isPySpace = m := by
    intro m hm
    cases m with
    | nil => rfl
    | cons x xs =>
      rw [List.dropWhile_cons, if_neg]
      rw [hm x (List.mem_cons_self x xs)]
      simp
  unfold pyStripChars
  rw [hdw l h, hdw l.reverse (fun c hc => h c (List.mem_reverse.mp hc)), List.reverse_reverse]

theorem map_id_of {f : Char → Char} :
    ∀ l : List Char, (∀ c ∈ l, f c = c) → l.map f = l := by
  intro l
  induction l with
  | nil => intro _; rfl
  | cons x xs ih =>
    intro h
    rw [List.map_cons, h x (List.mem_cons_self x xs),
        ih (fun c hc => h c (List.mem_cons_of_mem x hc))]

/-!
## Lemmas about the whitespace / hyphen collapses
-/

theorem mem_collapseWsAux :
    ∀ (l : List Char) (b : Bool) (c : Char), c ∈ collapseWsAux b l →
      c = ' ' ∨ (c ∈ l ∧ isPySpace c = false) := by
  intro l
  induction l with
  | nil => intro b c hc; simp [collapseWsAux] at hc
  | cons x xs ih =>
    intro b c hc
    unfold collapseWsAux at hc
    by_cases hx : isPySpace x = true
    · rw [if_pos hx] at hc
      by_cases hb : b = true
      · rw [if_pos hb] at hc
        rcases ih true c hc with h | ⟨h1, h2⟩
        · exact Or.inl h
        · exact Or.inr ⟨List.mem_cons_of_mem x h1, h2⟩
      · rw [if_neg hb] at hc
        rcases List.mem_cons.mp hc with rfl | hc'
        · exact Or.inl rfl
        · rcases ih true c hc' with h | ⟨h1, h2⟩
          · exact Or.inl h
          · exact Or.inr ⟨List.mem_cons_of_mem x h1, h2⟩
    · rw [if_neg hx] at hc
      rcases List.mem_cons.mp hc with rfl | hc'
      · exact Or.inr ⟨List.mem_cons_self _ _, by simpa using hx⟩
      · rcases ih false c hc' with h | ⟨h1, h2⟩
        · exact Or.inl h
        · exact Or.inr ⟨List.mem_cons_of_mem x h1, h2⟩

theorem mem_collapseWsAux_of_nonws :
    ∀ (l : List Char) (b : Bool) (c : Char), c ∈ l → isPySpace c = false →
      c ∈ collapseWsAux b l := by
  intro l
  induction l with
  | nil => simp
  | cons x xs ih =>
    intro b c hc hws
    unfold collapseWsAux
    by_cases hx : isPySpace x = true
    · have hc' : c ∈ xs := by
        rcases List.mem_cons.mp hc with rfl | h
        · rw [hx] at hws
          exact absurd hws (by simp)
        · exact h
      rw [if_pos hx]
      by_cases hb : b = true
      · rw [if_pos hb]
        exact ih true c hc' hws
      · rw [if_neg hb]
        exact List.mem_cons_of_mem ' ' (ih true c hc' hws)
    · rw [if_neg hx]
      rcases List.mem_cons.mp hc with rfl | hc'
      · exact List.mem_cons_self c _
      · exact List.mem_cons_of_mem x (ih false c hc' hws)

theorem mem_collapseHyAux :
    ∀ (l : List Char) (b : Bool) (c : Char), c ∈ collapseHyAux b l → c ∈ l := by
  intro l
  induction l with
  | nil => intro b c hc; simp [collapseHyAux] at hc
  | cons x xs ih =>
    intro b c hc
    unfold collapseHyAux at hc
    by_cases hx : (x == '-') = true
    · rw [if_pos hx] at hc
      rw [beq_iff_eq] at hx
      subst hx
      by_cases hb : b = true
      · rw [if_pos hb] at hc
        exact List.mem_cons_of_mem _ (ih true c hc)
      · rw [if_neg hb] at hc
        rcases List.mem_cons.mp hc with rfl | hc'
        · exact List.mem_cons_self _ _
        · exact List.mem_cons_of_mem _ (ih true c hc')
    · rw [if_neg hx] at hc
      rcases List.mem_cons.mp hc with rfl | hc'
      · exact List.mem_cons_self _ _
      · exact List.mem_cons_of_mem x (ih false c hc')

theorem noDoubleHyphen_cons_of_head (c : Char) (l : List Char)
    (hc : (c == '-') = false ∨ headNotHy l = true)
    (hl : noDoubleHyphen l = true) : noDoubleHyphen (c :: l) = true := by
  cases l with
  | nil => rfl
  | cons c2 t =>
    unfold noDoubleHyphen
    rw [Bool.and_eq_true]
    refine ⟨?_, hl⟩
    rcases hc with h | h
    · simp [h]
    · unfold headNotHy at h
      rw [bne_iff_ne] at h
      simp [h]

theorem collapseHyAux_nd :
    ∀ (l : List Char) (b : Bool),
      noDoubleHyphen (collapseHyAux b l) = true ∧
      (b = true → headNotHy (collapseHyAux b l) = true) := by
  intro l
  induction l with
  | nil => intro b; exact ⟨rfl, fun _ => rfl⟩
  | cons x xs ih =>
    intro b
    unfold collapseHyAux
    by_cases hx : (x == '-') = true
    · rw [if_pos hx]
      cases b with
      | true =>
        rw [if_pos rfl]
        exact ih true
      | false =>
        rw [if_neg (by simp)]
        obtain ⟨ihnd, ihhd⟩ := ih true
        exact ⟨noDoubleHyphen_cons_of_head _ _ (Or.inr (ihhd rfl)) ihnd,
          fun hbt => absurd hbt (by simp)⟩
    · rw [if_neg hx]
      obtain ⟨ihnd, _⟩ := ih false
      constructor
      · exact noDoubleHyphen_cons_of_head _ _ (Or.inl (by simpa using hx)) ihnd
      · intro _
        unfold headNotHy
        rw [bne_iff_ne]
        simpa using hx

theorem noDoubleHyphen_tail (c : Char) (l : List Char)
    (h : noDoubleHyphen (c :: l) = true) : noDoubleHyphen l = true := by
  cases l with
  | nil => rfl
  | cons c2 t =>
    unfold noDoubleHyphen at h
    exact ((Bool.and_eq_true _ _).mp h).2

theorem noDoubleHyphen_head_pair (c c2 : Char) (t : List Char)
    (h : noDoubleHyphen (c :: c2 :: t) = true) :
    (c == '-' && c2 == '-') = false := by
  unfold noDoubleHyphen at h
  have hh := ((Bool.and_eq_true _ _).mp h).1
  rw [Bool.not_eq_true'] at hh
  exact hh

theorem collapseHyAux_id :
    ∀ (l : List Char) (b : Bool), noDoubleHyphen l = true →
      (b = true → headNotHy l = true) → collapseHyAux b l = l := by
  intro l
  induction l with
  | nil => intro b _ _; rfl
  | cons x xs ih =>
    intro b hnd hhd
    unfold collapseHyAux
    by_cases hx : (x == '-') = true
    · rw [beq_iff_eq] at hx
      subst hx
      have hb : b = false := by
        cases b with
        | false => rfl
        | true =>
          have hcontra := hhd rfl
          unfold headNotHy at hcontra
          rw [bne_iff_ne] at hcontra
          exact absurd rfl hcontra
      subst hb
      rw [if_pos (by simp)]
      rw [if_neg (by simp)]
      congr 1
      apply ih true (noDoubleHyphen_tail _ xs hnd)
      intro _
      cases xs with
      | nil => rfl
      | cons c2 t =>
        have hpair := noDoubleHyphen_head_pair '-' c2 t hnd
        simp only [beq_self_eq_true, Bool.true_and] at hpair
        unfold headNotHy
        rw [bne_iff_ne]
        simpa using hpair
    · rw [if_neg hx]
      congr 1
      exact ih false (noDoubleHyphen_tail x xs hnd) (by simp)

/-!
## Slug-regex DFA soundness
-/

theorem isSlugChar_ne_hyphen (c : Char) (h : isSlugChar c = true) : c ≠ '-' := by
  intro heq
  subst heq
  exact absurd h (by decide)

theorem slugDFA_props :
    ∀ (l : List Char) (b : Bool), slugDFA b l = true →
      (∀ c ∈ l, isSlugChar c = true ∨ c = '-') ∧ noDoubleHyphen l = true ∧
      (b = true → headNotHy l = true ∧ l ≠ []) := by
  intro l
  induction l with
  | nil =>
    intro b h
    unfold slugDFA at h
    refine ⟨by simp, rfl, fun hb => ?_⟩
    rw [hb] at h
    exact absurd h (by simp)
  | cons x xs ih =>
    intro b h
    unfold slugDFA at h
    by_cases hx : isSlugChar x = true
    · rw [if_pos hx] at h
      obtain ⟨ihcs, ihnd, _⟩ := ih false h
      refine ⟨?_, ?_, fun _ => ⟨?_, by simp⟩⟩
      · intro c hc
        rcases List.mem_cons.mp hc with rfl | hc'
        · exact Or.inl hx
        · exact ihcs c hc'
      · apply noDoubleHyphen_cons_of_head _ _ (Or.inl ?_) ihnd
        rw [beq_eq_false_iff_ne]
        exact isSlugChar_ne_hyphen x hx
      · unfold headNotHy
        rw [bne_iff_ne]
        exact isSlugChar_ne_hyphen x hx
    · rw [if_neg hx] at h
      by_cases hx2 : (x == '-' && !b) = true
      · rw [if_pos hx2] at h
        rw [Bool.and_eq_true, beq_iff_eq, Bool.not_eq_true'] at hx2
        obtain ⟨rfl, hb⟩ := hx2
        obtain ⟨ihcs, ihnd, ihhd⟩ := ih true h
        obtain ⟨hhd, hne⟩ := ihhd rfl
        refine ⟨?_, ?_, fun hbt => absurd hbt (by simp [hb])⟩
        · intro c hc
          rcases List.mem_cons.mp hc with rfl | hc'
          · exact Or.inr rfl
          · exact ihcs c hc'
        · exact noDoubleHyphen_cons_of_head _ _ (Or.inr hhd) ihnd
      · rw [if_neg hx2] at h
        exact absurd h (by simp)

theorem slugDFA_ne_nil (l : List Char) (h : slugDFA true l = true) : l ≠ [] := by
  intro heq
  subst heq
  exact absurd h (by decide)

/-!
## CLAIM C4: slugify output shape
-/

theorem char_isLower_of_toNat (c : Char) (h1 : 97 ≤ c.toNat) (h2 : c.toNat ≤ 122) :
    c.isLower = true := by
  unfold Char.isLower
  rw [Bool.and_eq_true, decide_eq_true_eq, decide_eq_true_eq]
  constructor
  · rw [ge_iff_le, uint32_le_iff_toNat_le]
    exact h1
  · rw [uint32_le_iff_toNat_le]
    exact h2

theorem char_isDigit_of_toNat (c : Char) (h1 : 48 ≤ c.toNat) (h2 : c.toNat ≤ 57) :
    c.isDigit = true := by
  unfold Char.isDigit
  rw [Bool.and_eq_true, decide_eq_true_eq, decide_eq_true_eq]
  constructor
  · rw [ge_iff_le, uint32_le_iff_toNat_le]
    exact h1
  · rw [uint32_le_iff_toNat_le]
    exact h2

theorem char_lower_bounds (c : Char) (h : c.isLower = true) : 'a' ≤ c ∧ c ≤ 'z' := by
  obtain ⟨h1, h2⟩ := char_isLower_toNat c h
  have ha : ('a' : Char).toNat = 97 := by decide
  have hz : ('z' : Char).toNat = 122 := by decide
  exact ⟨char_le_of_toNat_le (by omega), char_le_of_toNat_le (by omega)⟩

theorem char_digit_bounds (c : Char) (h : c.isDigit = true) : '0' ≤ c ∧ c ≤ '9' := by
  obtain ⟨h1, h2⟩ := char_isDigit_toNat c h
  have h0 : ('0' : Char).toNat = 48 := by decide
  have h9 : ('9' : Char).toNat = 57 := by decide
  exact ⟨char_le_of_toNat_le (by omega), char_le_of_toNat_le (by omega)⟩

theorem isSlugChar_toNat (c : Char) (h : isSlugChar c = true) :
    (97 ≤ c.toNat ∧ c.toNat ≤ 122) ∨ (48 ≤ c.toNat ∧ c.toNat ≤ 57) := by
  unfold isSlugChar at h
  rw [Bool.or_eq_true, Bool.and_eq_true, Bool.and_eq_true] at h
  have ha : ('a' : Char).toNat = 97 := by decide
  have hz : ('z' : Char).toNat = 122 := by decide
  have h0 : ('0' : Char).toNat = 48 := by decide
  have h9 : ('9' : Char).toNat = 57 := by decide
  rcases h with ⟨h1, h2⟩ | ⟨h1, h2⟩
  · rw [decide_eq_true_eq] at h1 h2
    have hb1 := char_toNat_le_of_le h1
    have hb2 := char_toNat_le_of_le h2
    left
    omega
  · rw [decide_eq_true_eq] at h1 h2
    have hb1 := char_toNat_le_of_le h1
    have hb2 := char_toNat_le_of_le h2
    right
    omega

/-- The characters of `slugCore l` when the only whitespace `l` carries is
the plain space: lowercase ASCII letters, digits, underscore, hyphen —
with no hyphen run. -/
theorem slugCore_shape (l : List Char)
    (hws : ∀ c ∈ l, isPySpace c = true → c = ' ') :
    (∀ c ∈ slugCore l,
      ('a' ≤ c ∧ c ≤ 'z') ∨ ('0' ≤ c ∧ c ≤ '9') ∨ c = '_' ∨ c = '-') ∧
    noDoubleHyphen (slugCore l) = true := by
  constructor
  · intro c' hc'
    unfold slugCore at hc'
    have hc5 := mem_collapseHyAux _ _ _ hc'
    rw [List.mem_map] at hc5
    obtain ⟨c, hcmem, hrepl⟩ := hc5
    have hc4 := mem_of_mem_pyStripChars _ _ hcmem
    rw [List.mem_filter] at hc4
    obtain ⟨hc3, hpred⟩ := hc4
    rw [List.mem_map] at hc3
    obtain ⟨c0, hc0, hlow⟩ := hc3
    by_cases hsp : (c == ' ') = true
    · rw [if_pos hsp] at hrepl
      right; right; right
      exact hrepl.symm
    · rw [if_neg hsp] at hrepl
      subst hrepl
      rw [Bool.or_eq_true, Bool.or_eq_true] at hpred
      rcases hpred with (hw | hspc) | hhy
      · unfold isWordChar at hw
        rw [Bool.or_eq_true] at hw
        rcases hw with han | hund
        · unfold Char.isAlphanum at han
          rw [Bool.or_eq_true] at han
          rcases han with hal | hdig
          · unfold Char.isAlpha at hal
            rw [Bool.or_eq_true] at hal
            rcases hal with hup | hlo
            · exfalso
              rw [← hlow, toLower_isUpper_false c0] at hup
              exact absurd hup (by simp)
            · exact Or.inl (char_lower_bounds c hlo)
          · exact Or.inr (Or.inl (char_digit_bounds c hdig))
        · exact Or.inr (Or.inr (Or.inl (beq_iff_eq.mp hund)))
      · exfalso
        have hl0 : Char.toLower c0 = c0 :=
          toLower_ws_eq_self c0 (by rw [hlow]; exact hspc)
        have hcc0 : c = c0 := by rw [← hlow, hl0]
        have hc0ws : isPySpace c0 = true := by rw [← hcc0]; exact hspc
        have hc0sp := hws c0 hc0 hc0ws
        rw [hcc0, hc0sp] at hsp
        exact hsp (by simp)
      · exact Or.inr (Or.inr (Or.inr (beq_iff_eq.mp hhy)))
  · unfold slugCore
    exact (collapseHyAux_nd _ false).1

/-- `slugCore` is the identity on strings already matching the slug
regex. -/
theorem slugCore_id_of_slug (l : List Char)
    (hcs : ∀ c ∈ l, isSlugChar c = true ∨ c = '-')
    (hnd : noDoubleHyphen l = true)
    (hhd : headNotHy l = true) :
    slugCore l = l := by
  have hfacts : ∀ c ∈ l, Char.toLower c = c ∧
      (isWordChar c || isPySpace c || c == '-') = true ∧
      isPySpace c = false ∧ (c == ' ') = false := by
    intro c hc
    have hnat : (97 ≤ c.toNat ∧ c.toNat ≤ 122) ∨ (48 ≤ c.toNat ∧ c.toNat ≤ 57) ∨
        c = '-' := by
      rcases hcs c hc with hsl | rfl
      · rcases isSlugChar_toNat c hsl with h | h
        · exact Or.inl h
        · exact Or.inr (Or.inl h)
      · exact Or.inr (Or.inr rfl)
    have hnat' : 45 ≤ c.toNat ∧ ¬(65 ≤ c.toNat ∧ c.toNat ≤ 90) := by
      rcases hnat with h | h | rfl
      · omega
      · omega
      · constructor
        · decide
        · decide
    refine ⟨toLower_eq_self_of_toNat c hnat'.2, ?_, ?_, ?_⟩
    · rw [Bool.or_eq_true, Bool.or_eq_true]
      rcases hnat with h | h | rfl
      · left; left
        unfold isWordChar
        rw [Bool.or_eq_true]
        left
        unfold Char.isAlphanum
        rw [Bool.or_eq_true]
        left
        unfold Char.isAlpha
        rw [Bool.or_eq_true]
        right
        exact char_isLower_of_toNat c h.1 h.2
      · left; left
        unfold isWordChar
        rw [Bool.or_eq_true]
        left
        unfold Char.isAlphanum
        rw [Bool.or_eq_true]
        right
        exact char_isDigit_of_toNat c h.1 h.2
      · right
        simp
    · by_contra hcon
      have hcon' : isPySpace c = true := by simpa using hcon
      have := isPySpace_toNat_le c hcon'
      omega
    · rw [beq_eq_false_iff_ne]
      intro heq
      subst heq
      have : (' ' : Char).toNat = 32 := by decide
      omega
  unfold slugCore
  rw [map_id_of l (fun c hc => (hfacts c hc).1)]
  rw [List.filter_eq_self.mpr (fun c hc => (hfacts c hc).2.1)]
  rw [pyStripChars_eq_self l (fun c hc => (hfacts c hc).2.2.1)]
  rw [map_id_of l (fun c hc => by rw [if_neg (by simp [(hfacts c hc).2.2.2])])]
  exact collapseHyAux_id l false hnd (fun _ => hhd)

/-- All-whitespace (or empty) input strips to nothing before the
whitespace collapse. -/
theorem pyStripChars_eq_nil_of_ws (l : List Char)
    (h : ∀ c ∈ l, isPySpace c = true) : pyStripChars l = [] := by
  unfold pyStripChars
  have hd : l.dropWhile isPySpace = [] := by
    rw [List.dropWhile_eq_nil_iff]
    exact h
  rw [hd]
  rfl

/-- CLAIM C4 (amended).  For every input of ASCII characters containing at
least one non-whitespace character, `slugify` returns either the fallback
verbatim or a non-empty string whose characters are lowercase ASCII
letters, digits, underscore or hyphen (underscore is `\w` and survives,
unlike the claim's `[a-z0-9]`), with no repeated hyphens but possibly
leading/trailing ones.  (The ASCII restriction is where this embedding of
the source's Unicode `\w`/`str.lower()` coincides with the program; on
non-ASCII input the program additionally preserves lowercased non-ASCII
word characters, e.g. `slugify("É") = "é"`.)  For empty or all-whitespace
input the fallback itself is pushed through the normalization pipeline; it
comes back verbatim whenever it already matches
`^[a-z0-9]+(-[a-z0-9]+)*$` — in particular for the default
`"chapitre"`. -/
theorem slugify_shape :
    (∀ (name fallback : String),
      (∀ c ∈ name.data, c.toNat < 128) →
      (∃ c ∈ name.data, isPySpace c = false) →
      slugify name fallback = fallback ∨
      (slugify name fallback ≠ "" ∧
       (∀ c ∈ (slugify name fallback).data,
          ('a' ≤ c ∧ c ≤ 'z') ∨ ('0' ≤ c ∧ c ≤ '9') ∨ c = '_' ∨ c = '-') ∧
       noDoubleHyphen (slugify name fallback).data = true)) ∧
    (∀ (name fallback : String),
      (∀ c ∈ name.data, isPySpace c = true) →
      matchesSlugRegex fallback = true →
      slugify name fallback = fallback) := by
  constructor
  · rintro name fb - ⟨c, hcmem, hcnws⟩
    have hn1ne : slugStage1 name.data ≠ [] :=
      List.ne_nil_of_mem (mem_collapseWsAux_of_nonws _ false c
        (mem_pyStripChars_of_nonws _ c hcmem hcnws) hcnws)
    have hst2 : slugStage2 name.data fb.data = slugStage1 name.data := by
      unfold slugStage2
      rw [if_neg (by simpa using hn1ne)]
    have hws : ∀ c' ∈ slugStage1 name.data, isPySpace c' = true → c' = ' ' := by
      intro c' hc' hwsp
      rcases mem_collapseWsAux _ false c' hc' with h | ⟨_, hnws⟩
      · exact h
      · rw [hwsp] at hnws
        exact absurd hnws (by simp)
    obtain ⟨hcs, hnd⟩ := slugCore_shape _ hws
    unfold slugify slugifyChars
    rw [hst2]
    by_cases hemp : (slugCore (slugStage1 name.data)).isEmpty
    · rw [if_pos hemp]
      exact Or.inl rfl
    · rw [if_neg hemp]
      right
      refine ⟨?_, hcs, hnd⟩
      intro hcon
      have hdata : slugCore (slugStage1 name.data) = [] := congrArg String.data hcon
      rw [hdata] at hemp
      exact hemp rfl
  · intro name fb hws hm
    unfold matchesSlugRegex at hm
    obtain ⟨hcs, hnd, hhdne⟩ := slugDFA_props fb.data true hm
    obtain ⟨hhd, hne⟩ := hhdne rfl
    have hn1 : slugStage1 name.data = [] := by
      unfold slugStage1
      rw [pyStripChars_eq_nil_of_ws name.data hws]
      rfl
    have hst2 : slugStage2 name.data fb.data = fb.data := by
      unfold slugStage2
      rw [hn1]
      simp
    have hcore : slugCore fb.data = fb.data := slugCore_id_of_slug fb.data hcs hnd hhd
    unfold slugify slugifyChars
    rw [hst2, hcore]
    rw [if_neg (by simpa using hne)]

/-- CLAIM C4 (counterexample).  `slugify "-a_b-" "chapitre"` returns
`"-a_b-"`: an underscore (kept by `\w`) plus leading and trailing hyphens,
so the output neither matches `^[a-z0-9]+(-[a-z0-9]+)*$` nor equals the
fallback.  And `slugify "" "A B" = "a-b" ≠ "A B"`: the empty input does
not return an arbitrary fallback verbatim — the fallback is normalized
too. -/
theorem slugify_regex_counterexample :
    slugify "-a_b-" "chapitre" = "-a_b-" ∧
    matchesSlugRegex (slugify "-a_b-" "chapitre") = false ∧
    slugify "-a_b-" "chapitre" ≠ "chapitre" ∧
    slugify "" "A B" ≠ "A B" := by
  decide

/-- Witness for C4 at the ASCII input `"Hello   World!!"` (part 1) and, for
part 2, at the empty and at an all-whitespace input with the default
fallback `"chapitre"`. -/
theorem slugify_shape_witness :
    (slugify "Hello   World!!" "chapitre" = "chapitre" ∨
      (slugify "Hello   World!!" "chapitre" ≠ "" ∧
       (∀ c ∈ (slugify "Hello   World!!" "chapitre").data,
          ('a' ≤ c ∧ c ≤ 'z') ∨ ('0' ≤ c ∧ c ≤ '9') ∨ c = '_' ∨ c = '-') ∧
       noDoubleHyphen (slugify "Hello   World!!" "chapitre").data = true)) ∧
    slugify "" "chapitre" = "chapitre" ∧
    slugify " \t " "chapitre" = "chapitre" :=
  ⟨slugify_shape.1 "Hello   World!!" "chapitre" (by decide) ⟨'H', by decide, by decide⟩,
   slugify_shape.2 "" "chapitre" (by decide) (by decide),
   slugify_shape.2 " \t " "chapitre" (by decide) (by decide)⟩

/-- Witness for C6 at a book with two equal-length heuristic candidates:
the hypotheses hold and the stable tie-break characterization follows. -/
theorem detect_cover_shortest_stable_witness :
    ∃ c pre post,
      detect_cover_item ⟨[], [⟨"a", "coverA.jpg", []⟩, ⟨"b", "coverB.jpg", []⟩],
          [], []⟩ = some c ∧
      (Book.images ⟨[], [⟨"a", "coverA.jpg", []⟩, ⟨"b", "coverB.jpg", []⟩],
          [], []⟩).filter tier3pred = pre ++ c :: post ∧
      (∀ x ∈ pre, coverKey c < coverKey x) ∧
      (∀ x ∈ (Book.images ⟨[], [⟨"a", "coverA.jpg", []⟩, ⟨"b", "coverB.jpg", []⟩],
          [], []⟩).filter tier3pred, coverKey c ≤ coverKey x) :=
  detect_cover_shortest_stable.1
    ⟨[], [⟨"a", "coverA.jpg", []⟩, ⟨"b", "coverB.jpg", []⟩], [], []⟩
    (Or.inl rfl) (by decide) (by decide)

/-!
## CLAIM C7: the Asset Map
-/

theorem lookup_map_update_ne (m : List (String × String)) (k v k' : String)
    (hne : k' ≠ k) :
    List.lookup k' (m.map (fun kv => if kv.1 == k then (kv.1, v) else kv)) =
      List.lookup k' m := by
  induction m with
  | nil => rfl
  | cons ab m' ih =>
    obtain ⟨a, b⟩ := ab
    simp only [List.map_cons]
    by_cases hak : (a == k) = true
    · rw [if_pos hak]
      have hka : (k' == a) = false := by
        rw [beq_eq_false_iff_ne]
        intro h
        exact hne (h.trans (beq_iff_eq.mp hak))
      rw [List.lookup_cons, List.lookup_cons, hka]
      exact ih
    · rw [if_neg hak]
      rw [List.lookup_cons, List.lookup_cons]
      cases hka : (k' == a) with
      | true => rfl
      | false => exact ih

theorem lookup_map_update_eq (m : List (String × String)) (k v : String)
    (hany : m.any (fun kv => kv.1 == k) = true) :
    List.lookup k (m.map (fun kv => if kv.1 == k then (kv.1, v) else kv)) = some v := by
  induction m with
  | nil => simp at hany
  | cons ab m' ih =>
    obtain ⟨a, b⟩ := ab
    simp only [List.map_cons]
    by_cases hak : (a == k) = true
    · rw [if_pos hak]
      have hka : (k == a) = true := by
        rw [beq_iff_eq]
        exact (beq_iff_eq.mp hak).symm
      rw [List.lookup_cons, hka]
    · rw [if_neg hak]
      have hany' : m'.any (fun kv => kv.1 == k) = true := by
        rw [List.any_cons] at hany
        rcases Bool.or_eq_true_iff.mp hany with h | h
        · exact absurd h hak
        · exact h
      have hka : (k == a) = false := by
        rw [beq_eq_false_iff_ne]
        intro h
        exact hak (by rw [beq_iff_eq]; exact h.symm)
      rw [List.lookup_cons, hka]
      exact ih hany'

theorem lookup_append_single (m : List (String × String)) (k v k' : String)
    (hnone : m.any (fun kv => kv.1 == k) = false) :
    List.lookup k' (m ++ [(k, v)]) = if k' = k then some v else List.lookup k' m := by
  rw [List.lookup_append]
  by_cases hk : k' = k
  · subst hk
    have hm : List.lookup k' m = none := by
      rw [List.lookup_eq_none_iff]
      intro p hp
      rw [bne_iff_ne]
      intro heq
      have hp1 : (p.1 == k') = true := by
        rw [beq_iff_eq]
        exact heq.symm
      have hcon : m.any (fun kv => kv.1 == k') = true := List.any_eq_true.mpr ⟨p, hp, hp1⟩
      rw [hcon] at hnone
      exact absurd hnone (by simp)
    rw [hm, if_pos rfl]
    simp
  · rw [if_neg hk]
    have hsingle : List.lookup k' [(k, v)] = none := by
      rw [List.lookup_eq_none_iff]
      intro p hp
      rw [List.mem_singleton] at hp
      subst hp
      rw [bne_iff_ne]
      exact hk
    rw [hsingle]
    cases List.lookup k' m <;> rfl

theorem lookup_dictInsert (m : List (String × String)) (k v k' : String) :
    List.lookup k' (dictInsert m k v) = if k' = k then some v else List.lookup k' m := by
  unfold dictInsert
  by_cases hany : m.any (fun kv => kv.1 == k) = true
  · rw [if_pos hany]
    by_cases hk : k' = k
    · subst hk
      rw [if_pos rfl]
      exact lookup_map_update_eq m k' v hany
    · rw [if_neg hk]
      exact lookup_map_update_ne m k v k' hk
  · rw [if_neg hany]
    exact lookup_append_single m k v k' (Bool.eq_false_iff.mpr hany)

theorem mem_dictInsert (m : List (String × String)) (k v : String)
    (kv : String × String) (h : kv ∈ dictInsert m k v) : kv ∈ m ∨ kv.2 = v := by
  unfold dictInsert at h
  by_cases hany : m.any (fun p => p.1 == k) = true
  · rw [if_pos hany] at h
    rw [List.mem_map] at h
    obtain ⟨kv0, hkv0, heq⟩ := h
    by_cases h0 : (kv0.1 == k) = true
    · rw [if_pos h0] at heq
      right
      rw [← heq]
    · rw [if_neg h0] at heq
      left
      rw [← heq]
      exact hkv0
  · rw [if_neg hany] at h
    rcases List.mem_append.mp h with h | h
    · exact Or.inl h
    · right
      rw [List.mem_singleton] at h
      rw [h]

theorem basenameChars_no_slash (cs : List Char) (c : Char)
    (h : c ∈ basenameChars cs) : c ≠ '/' := by
  unfold basenameChars at h
  rw [List.mem_reverse] at h
  have := List.mem_takeWhile_imp h
  exact of_decide_eq_true this

theorem pyBasename_no_slash (s : String) (c : Char)
    (h : c ∈ (pyBasename s).data) : c ≠ '/' :=
  basenameChars_no_slash s.data c h

theorem basenameChars_eq_self (cs : List Char) (h : ∀ c ∈ cs, c ≠ '/') :
    basenameChars cs = cs := by
  unfold basenameChars
  rw [List.takeWhile_eq_self_iff.mpr, List.reverse_reverse]
  intro c hc
  exact decide_eq_true (h c (List.mem_reverse.mp hc))

theorem pyBasename_eq_self (s : String) (h : ∀ c ∈ s.data, c ≠ '/') :
    pyBasename s = s := by
  unfold pyBasename
  rw [basenameChars_eq_self s.data h]

theorem pyBasename_idem (s : String) :
    pyBasename (pyBasename s) = pyBasename s :=
  pyBasename_eq_self _ (pyBasename_no_slash s)

theorem splitextExtChars_subset (cs : List Char) (c : Char)
    (h : c ∈ splitextExtChars cs) : c ∈ cs := by
  unfold splitextExtChars at h
  by_cases h1 : ((cs.reverse.takeWhile (fun c => c ≠ '.')).length == cs.length) = true
  · rw [if_pos h1] at h
    exact absurd h (List.not_mem_nil c)
  · rw [if_neg h1] at h
    by_cases h2 : ((cs.take (cs.length - (cs.reverse.takeWhile
        (fun c => c ≠ '.')).length - 1)).all (fun c => c == '.')) = true
    · rw [if_pos h2] at h
      exact absurd h (List.not_mem_nil c)
    · rw [if_neg h2] at h
      exact (List.drop_sublist _ _).mem h

theorem coverExtFor_no_slash (s : String) (hs : ∀ c ∈ s.data, c ≠ '/') :
    ∀ c ∈ (coverExtFor s).data, c ≠ '/' := by
  intro c hc
  unfold coverExtFor at hc
  by_cases he : (String.mk (splitextExtChars s.data) == "") = true
  · rw [if_pos he] at hc
    have hcases : c = '.' ∨ c = 'j' ∨ c = 'p' ∨ c = 'g' := by
      simpa using hc
    rcases hcases with rfl | rfl | rfl | rfl <;> decide
  · rw [if_neg he] at hc
    exact hs c (splitextExtChars_subset s.data c hc)

theorem exportDst_no_slash (coverSrc : Option String) (item : EpubItem) :
    ∀ c ∈ (exportDst coverSrc item).data, c ≠ '/' := by
  intro c hc
  unfold exportDst at hc
  have hbase := pyBasename_no_slash item.file_name
  cases coverSrc with
  | none => exact hbase c hc
  | some cs =>
    dsimp only at hc
    by_cases hcond : (cs ≠ "" && item.file_name == cs) = true
    · rw [if_pos hcond] at hc
      rw [String.data_append] at hc
      rcases List.mem_append.mp hc with h | h
      · have hcases : c = 'c' ∨ c = 'o' ∨ c = 'v' ∨ c = 'e' ∨ c = 'r' := by
          simpa using h
        rcases hcases with rfl | rfl | rfl | rfl | rfl <;> decide
      · exact coverExtFor_no_slash _ hbase c h
    · rw [if_neg hcond] at hc
      exact hbase c hc

theorem exportStep_lookup (imgdir : String) (cs : Option String)
    (m : List (String × String)) (it : EpubItem) (K : String) :
    List.lookup K (exportStep imgdir cs m it) =
      if K = pyBasename it.file_name then some (pyJoin imgdir (exportDst cs it))
      else if K = it.file_name then some (pyJoin imgdir (exportDst cs it))
      else List.lookup K m := by
  unfold exportStep
  rw [lookup_dictInsert, lookup_dictInsert]

theorem foldl_exportStep_skip (imgdir : String) (cs : Option String) :
    ∀ (items : List EpubItem) (m : List (String × String)) (K : String),
      (∀ it ∈ items, K ≠ it.file_name ∧ K ≠ pyBasename it.file_name) →
      List.lookup K (items.foldl (exportStep imgdir cs) m) = List.lookup K m := by
  intro items
  induction items with
  | nil => intro m K _; rfl
  | cons it rest ih =>
    intro m K hdisj
    rw [List.foldl_cons]
    rw [ih _ K (fun x hx => hdisj x (List.mem_cons_of_mem it hx))]
    rw [exportStep_lookup]
    obtain ⟨h1, h2⟩ := hdisj it (List.mem_cons_self it rest)
    rw [if_neg h2, if_neg h1]

theorem foldl_exportStep_mem_shape (imgdir : String) (cs : Option String) :
    ∀ (items : List EpubItem) (m : List (String × String)),
      (∀ kv ∈ m, ∃ name : String,
        (∀ ch ∈ name.data, ch ≠ '/') ∧ kv.2 = pyJoin imgdir name) →
      ∀ kv ∈ items.foldl (exportStep imgdir cs) m,
        ∃ name : String, (∀ ch ∈ name.data, ch ≠ '/') ∧ kv.2 = pyJoin imgdir name := by
  intro items
  induction items with
  | nil => intro m hm kv hkv; exact hm kv hkv
  | cons it rest ih =>
    intro m hm kv hkv
    rw [List.foldl_cons] at hkv
    refine ih _ ?_ kv hkv
    intro kv' hkv'
    unfold exportStep at hkv'
    rcases mem_dictInsert _ _ _ kv' hkv' with h | h
    · rcases mem_dictInsert _ _ _ kv' h with h' | h'
      · exact hm kv' h'
      · exact ⟨exportDst cs it, exportDst_no_slash cs it, h'⟩
    · exact ⟨exportDst cs it, exportDst_no_slash cs it, h⟩

theorem tier1Scan_mem :
    ∀ (metas : List MetaEntry) (images : List EpubItem) (x : EpubItem),
      tier1Scan images metas = Except.ok (some x) → x ∈ images := by
  intro metas
  induction metas with
  | nil =>
    intro images x h
    unfold tier1Scan at h
    exact absurd h (by simp)
  | cons e rest ih =>
    intro images x h
    cases e with
    | malformed =>
      unfold tier1Scan at h
      exact absurd h (by simp)
    | nonDict v =>
      unfold tier1Scan at h
      exact ih images x h
    | pair v attrs =>
      unfold tier1Scan at h
      split at h
      · split at h
        · split at h
          · split at h
            · rename_i hfind
              have hx : x ∈ images := by
                injection h with h'
                injection h' with h''
                subst h''
                exact List.mem_of_find?_eq_some hfind
              exact hx
            · exact ih images x h
          · exact ih images x h
        · exact ih images x h
      · exact ih images x h

theorem detect_cover_tier23_mem (book : Book) (it : EpubItem)
    (h : detect_cover_tier23 book = some it) : it ∈ book.images := by
  unfold detect_cover_tier23 at h
  split at h
  · rename_i hfind
    injection h with h'
    subst h'
    exact List.mem_of_find?_eq_some hfind
  · split at h
    · exact absurd h (by simp)
    · rename_i c rest hsort
      injection h with h'
      rw [← h']
      obtain ⟨pre, post, hdecomp, _, _⟩ := sortByKey_head_min coverKey _ c rest hsort
      have hmem : c ∈ book.images.filter tier3pred := by
        rw [hdecomp]
        exact List.mem_append_cons_self
      exact List.mem_of_mem_filter hmem

theorem detect_cover_item_mem (book : Book) (it : EpubItem)
    (h : detect_cover_item book = some it) : it ∈ book.images := by
  unfold detect_cover_item at h
  split at h
  · rename_i x htier1
    injection h with h'
    subst h'
    exact tier1Scan_mem book.metaOPF book.images x htier1
  · exact detect_cover_tier23_mem book it h

/-- After the export loop, an asset's two keys both resolve to the asset's
own destination path, provided no later asset reuses either key — which the
pairwise-distinct-basenames hypothesis guarantees. -/
theorem export_images_map_lookup (book : Book) (imgdir : String)
    (hnodup : (book.images.map (fun it => pyBasename it.file_name)).Nodup)
    (x : EpubItem) (hx : x ∈ book.images) :
    List.lookup x.file_name (export_images_map book imgdir) =
      some (pyJoin imgdir
        (exportDst ((detect_cover_item book).map (fun i => i.file_name)) x)) ∧
    List.lookup (pyBasename x.file_name) (export_images_map book imgdir) =
      some (pyJoin imgdir
        (exportDst ((detect_cover_item book).map (fun i => i.file_name)) x)) := by
  obtain ⟨pre, post, hdecomp⟩ := List.append_of_mem hx
  have hpostbn : ∀ it' ∈ post, pyBasename it'.file_name ≠ pyBasename x.file_name := by
    rw [hdecomp, List.map_append, List.map_cons] at hnodup
    have h2 := hnodup.of_append_right
    rw [List.nodup_cons] at h2
    intro it' hit' heq
    exact h2.1 (heq ▸ List.mem_map_of_mem _ hit')
  have hdisj : ∀ K : String, K = x.file_name ∨ K = pyBasename x.file_name →
      ∀ it' ∈ post, K ≠ it'.file_name ∧ K ≠ pyBasename it'.file_name := by
    intro K hK it' hit'
    have hbn := hpostbn it' hit'
    constructor
    · intro heq
      rcases hK with rfl | rfl
      · exact hbn (congrArg pyBasename heq.symm)
      · apply hbn
        rw [← heq, pyBasename_idem]
    · intro heq
      rcases hK with rfl | rfl
      · have hsym : pyBasename x.file_name = pyBasename it'.file_name := by
          rw [heq, pyBasename_idem]
        exact hbn hsym.symm
      · exact hbn heq.symm
  unfold export_images_map
  rw [hdecomp, List.foldl_append, List.foldl_cons]
  constructor
  · rw [foldl_exportStep_skip _ _ post _ _ (hdisj x.file_name (Or.inl rfl))]
    rw [exportStep_lookup]
    by_cases hq : x.file_name = pyBasename x.file_name
    · rw [if_pos hq]
    · rw [if_neg hq, if_pos rfl]
  · rw [foldl_exportStep_skip _ _ post _ _ (hdisj _ (Or.inr rfl))]
    rw [exportStep_lookup, if_pos rfl]

/-- CLAIM C7 (amended).  (a) Unconditionally, every entry of the returned
Asset Map has a value of the form `<imgdir>/<name>` with `<name>` free of
path separators.  (b, c) PROVIDED the assets' basenames are pairwise
distinct — without this, a later asset overwrites an earlier asset's key,
see the counterexample — every key of the selected cover (whose name must
be non-empty; an empty name is falsy at line 206) maps to a value with
basename `cover.<ext>` (`.jpg` when the source name has no extension), and
every key of a non-cover asset maps to a value keeping its original
basename. -/
theorem export_images_map_spec :
    (∀ (book : Book) (imgdir : String) (kv : String × String),
      kv ∈ export_images_map book imgdir →
      ∃ name : String, (∀ ch ∈ name.data, ch ≠ '/') ∧ kv.2 = pyJoin imgdir name) ∧
    (∀ (book : Book) (imgdir : String),
      (book.images.map (fun it => pyBasename it.file_name)).Nodup →
      (∀ cov : EpubItem, detect_cover_item book = some cov → cov.file_name ≠ "" →
        List.lookup cov.file_name (export_images_map book imgdir) =
          some (pyJoin imgdir ("cover" ++ coverExtFor (pyBasename cov.file_name))) ∧
        List.lookup (pyBasename cov.file_name) (export_images_map book imgdir) =
          some (pyJoin imgdir ("cover" ++ coverExtFor (pyBasename cov.file_name)))) ∧
      (∀ it ∈ book.images,
        Option.all (fun cov => cov.file_name == "" || cov.file_name != it.file_name)
          (detect_cover_item book) = true →
        List.lookup it.file_name (export_images_map book imgdir) =
          some (pyJoin imgdir (pyBasename it.file_name)) ∧
        List.lookup (pyBasename it.file_name) (export_images_map book imgdir) =
          some (pyJoin imgdir (pyBasename it.file_name)))) := by
  constructor
  · intro book imgdir kv hkv
    unfold export_images_map at hkv
    exact foldl_exportStep_mem_shape _ _ book.images [] (by simp) kv hkv
  · intro book imgdir hnodup
    constructor
    · intro cov hdet hne
      have hx := detect_cover_item_mem book cov hdet
      have hdst : exportDst ((detect_cover_item book).map (fun i => i.file_name)) cov =
          "cover" ++ coverExtFor (pyBasename cov.file_name) := by
        rw [hdet]
        show exportDst (some cov.file_name) cov = _
        unfold exportDst
        dsimp only
        rw [if_pos]
        rw [Bool.and_eq_true]
        exact ⟨decide_eq_true hne, beq_self_eq_true _⟩
      obtain ⟨h1, h2⟩ := export_images_map_lookup book imgdir hnodup cov hx
      rw [hdst] at h1 h2
      exact ⟨h1, h2⟩
    · intro it hit hcond
      have hdst : exportDst ((detect_cover_item book).map (fun i => i.file_name)) it =
          pyBasename it.file_name := by
        cases hdet : detect_cover_item book with
        | none => rfl
        | some cov =>
          rw [hdet] at hcond
          show exportDst (some cov.file_name) it = _
          unfold exportDst
          dsimp only
          rw [if_neg]
          intro hcontra
          rw [Bool.and_eq_true, decide_eq_true_eq, beq_iff_eq] at hcontra
          obtain ⟨hne, heq⟩ := hcontra
          have hcond' : (cov.file_name == "" || cov.file_name != it.file_name) = true :=
            hcond
          rcases Bool.or_eq_true_iff.mp hcond' with h | h
          · exact hne (beq_iff_eq.mp h)
          · rw [bne_iff_ne] at h
            exact h heq.symm
      obtain ⟨h1, h2⟩ := export_images_map_lookup book imgdir hnodup it hit
      rw [hdst] at h1 h2
      exact ⟨h1, h2⟩

/-- CLAIM C7 (counterexample).  With two assets sharing the basename
`photo.png` — the first the property-marked cover — the cover's own keys
end up mapping to `images/photo.png` (the later asset's entry overwrites
them, Python-dict last-write-wins), whose basename is not
`cover.<ext>`, refuting the unconditional claim. -/
theorem export_cover_key_overwritten_counterexample :
    detect_cover_item ⟨[], [⟨"imgA", "photo.png", ["cover-image"]⟩,
        ⟨"imgB", "x/photo.png", []⟩], [], []⟩ =
      some ⟨"imgA", "photo.png", ["cover-image"]⟩ ∧
    List.lookup "photo.png" (export_images_map ⟨[],
        [⟨"imgA", "photo.png", ["cover-image"]⟩, ⟨"imgB", "x/photo.png", []⟩],
        [], []⟩ "images") = some "images/photo.png" ∧
    pyBasename "images/photo.png" ≠ "cover" ++ coverExtFor (pyBasename "photo.png") := by
  decide

/-- Witness for C7 at a two-asset book with distinct basenames: the cover's
keys map to `images/cover.jpg` and the other asset keeps `photo.png`. -/
theorem export_images_map_spec_witness :
    (List.lookup "cov/cover.jpg" (export_images_map ⟨[],
        [⟨"c", "cov/cover.jpg", ["cover-image"]⟩, ⟨"p", "pics/photo.png", []⟩],
        [], []⟩ "images") =
      some (pyJoin "images" ("cover" ++ coverExtFor (pyBasename "cov/cover.jpg"))) ∧
     List.lookup (pyBasename "cov/cover.jpg") (export_images_map ⟨[],
        [⟨"c", "cov/cover.jpg", ["cover-image"]⟩, ⟨"p", "pics/photo.png", []⟩],
        [], []⟩ "images") =
      some (pyJoin "images" ("cover" ++ coverExtFor (pyBasename "cov/cover.jpg")))) ∧
    (List.lookup "pics/photo.png" (export_images_map ⟨[],
        [⟨"c", "cov/cover.jpg", ["cover-image"]⟩, ⟨"p", "pics/photo.png", []⟩],
        [], []⟩ "images") =
      some (pyJoin "images" (pyBasename "pics/photo.png")) ∧
     List.lookup (pyBasename "pics/photo.png") (export_images_map ⟨[],
        [⟨"c", "cov/cover.jpg", ["cover-image"]⟩, ⟨"p", "pics/photo.png", []⟩],
        [], []⟩ "images") =
      some (pyJoin "images" (pyBasename "pics/photo.png"))) :=
  ⟨(export_images_map_spec.2 ⟨[], [⟨"c", "cov/cover.jpg", ["cover-image"]⟩,
      ⟨"p", "pics/photo.png", []⟩], [], []⟩ "images" (by decide)).1
      ⟨"c", "cov/cover.jpg", ["cover-image"]⟩ (by decide) (by decide),
   (export_images_map_spec.2 ⟨[], [⟨"c", "cov/cover.jpg", ["cover-image"]⟩,
      ⟨"p", "pics/photo.png", []⟩], [], []⟩ "images" (by decide)).2
      ⟨"p", "pics/photo.png", []⟩ (by decide) (by decide)⟩

end Epub2Md
